import Mathlib

/-!
Verification of the starscout background-job orchestrator, batch enrichment
pipeline and semantic query service, as a shallow embedding of the Rust
sources. Repository identifiers are modelled as natural numbers, Rust
strings as Lean strings (a Rust string is a sequence of Unicode scalar
values, so the Rust expression chars().count() is String.data.length and
is_empty() is String.data.isEmpty), and every fallible external
interaction (database call, GitHub call, embedding-provider call) is
resolved by an explicit outcome oracle passed to the embedded functions.
Timestamps are abstracted as the value of the database call counter at the
moment a terminal status is written.
-/

namespace Starscout

/-! ## List helpers -/

/-- Structural worker for `chunksOf`; the fuel argument dominates the
length of the list, so the recursion is structural and computable by the
kernel. -/
def chunksOfAux (n : Nat) : Nat → List α → List (List α)
  | _, [] => []
  | 0, _ :: _ => []
  | fuel + 1, a :: t => (a :: t).take n :: chunksOfAux n fuel ((a :: t).drop n)

/-- Model of the Rust slice method `chunks(n)`: splits a list into
consecutive chunks of size `n`, the last chunk possibly shorter. Rust
panics on `n = 0`; the model returns `[]` in that unused case. -/
def chunksOf (n : Nat) (l : List α) : List (List α) :=
  if n = 0 then [] else chunksOfAux n l.length l

/-- Boolean check that every pair of consecutive elements satisfies `r`. -/
def pairwiseB (r : α → α → Bool) : List α → Bool
  | a :: b :: t => r a b && pairwiseB r (b :: t)
  | _ => true

/-! ## Data model: repositories and embedding text -/

/-- Item from the external source, mirroring the Rust struct `Repository`
(`src/backend-rust/src/types/repository.rs`): stable numeric id, owner and
name strings, optional description, optional README content and a list of
topic tags. Fields not used by the verified core (homepage, timestamps,
embedding payload) are omitted. -/
structure Repo where
  id : Nat
  name : String
  owner : String
  description : Option String
  readme_content : Option String
  topics : List String
  deriving Repr, DecidableEq

/-- Faithful model of `repo_to_embedding_text`
(`src/backend/src/services/semantic_search_manager.rs`): the exact text
handed to the embedding provider for one repository. Truncation counts
Unicode scalar values (the Rust call chars().count()), cutting to the
first 2000 with a literal `...` appended. -/
def repoToEmbeddingText (repo : Repo) : String :=
  let repoName := repo.owner ++ "/" ++ repo.name
  let description := repo.description.getD "None"
  let topics := if repo.topics.isEmpty then "None" else String.intercalate ", " repo.topics
  let truncatedReadme :=
    match repo.readme_content with
    | some readme =>
      if readme.data.length > 2000 then String.mk (readme.data.take 2000) ++ "..."
      else readme
    | none => "None"
  "\n# Key Information\nRepository name: " ++ repoName ++
    "\nDescription: " ++ description ++
    "\nTopics: " ++ topics ++
    "\nOwner: " ++ repo.owner ++
    "\n\n# README Content\n" ++ truncatedReadme ++ "\n"

/-- Joins lines with newline separators (used only by the specification
text below). -/
def lineJoin : List String → String
  | [] => ""
  | [l] => l
  | l :: ls => l ++ "\n" ++ lineJoin ls

/-- Auxiliary-content rule as the specification words it: content with at
most 2000 Unicode scalar values is passed unmodified, longer content is
cut to exactly its first 2000 scalar values with a literal ellipsis
appended; absent content uses the literal placeholder. -/
def auxiliaryContentSpec : Option String → String
  | none => "None"
  | some aux =>
    if aux.data.length ≤ 2000 then aux
    else String.mk (aux.data.take 2000) ++ "..."

/-- Embedding text as the specification words it: a structured
concatenation of an owner/name identity line, a description line with a
literal placeholder when absent, a comma-joined topics line with a literal
placeholder when the topic set is empty, an owner line, and the auxiliary
README content. -/
def embeddingTextSpec (repo : Repo) : String :=
  lineJoin
    ["", "# Key Information",
     "Repository name: " ++ repo.owner ++ "/" ++ repo.name,
     "Description: " ++ (match repo.description with | some d => d | none => "None"),
     "Topics: " ++ (match repo.topics with
       | [] => "None"
       | ts => String.intercalate ", " ts),
     "Owner: " ++ repo.owner,
     "", "# README Content",
     auxiliaryContentSpec repo.readme_content, ""]

/-! ## Pipeline state machine

The pipeline run for one job is embedded as explicit state passing over
`St`. All nondeterminism of the external world is resolved by an `Ext`
oracle: the outcome of the starred-repository source fetch, the README
fetch outcome per repository id, the embedding-provider response length
per request (indexed by a per-run provider call counter), the outcome of
the authenticated-user lookup, and the success of the n-th database call
of the run. A progress update that the database accepts is appended to
`progressLog`; every provider request made is appended to `embedCalls`. -/

/-- Outcome oracle for all external interactions of one pipeline run. -/
structure Ext where
  fetchStars : Except Unit (List Repo)
  readme : Nat → Option (Option String)
  provider : Nat → List String → Option Nat
  getUser : Option String
  dbOk : Nat → Bool

/-- Durable record of the job the run owns, mirroring the columns of the
`user_jobs` row touched by the run (`src/backend-rust/src/db/database.rs`).
The completion timestamp is null until a terminal status is written. -/
structure JobRec where
  status : String
  totalRepos : Nat
  processedRepos : Nat
  failedRepos : Nat
  completedAt : Option Nat
  deriving Repr, DecidableEq

/-- State threaded through a pipeline run: the stored repository ids with
embeddings (`repositories` table), the tracked-unenriched ids
(`repos_without_readme` table), the membership row of the job owner
(`user_stars` table), the job record, the log of accepted progress writes,
the log of embedding-provider requests, and the call counters consulted by
the oracle. -/
structure St where
  reposWithEmbedding : List Nat
  reposWithoutReadme : List Nat
  userStars : Option (List Nat × String)
  job : JobRec
  progressLog : List (Nat × Nat × Nat)
  embedCalls : List (List String)
  dbCalls : Nat
  provCalls : Nat
  deriving Repr, DecidableEq

/-- Initial state of a run: stores as given, job row freshly created by
`create_job` (status pending, all counters zero, no completion time). -/
def mkSt (withEmb withoutReadme : List Nat) (stars : Option (List Nat × String)) : St :=
  { reposWithEmbedding := withEmb
    reposWithoutReadme := withoutReadme
    userStars := stars
    job := { status := "pending", totalRepos := 0, processedRepos := 0,
             failedRepos := 0, completedAt := none }
    progressLog := []
    embedCalls := []
    dbCalls := 0
    provCalls := 0 }

/-- Consults the oracle for the outcome of the next database call. -/
def dbStep (e : Ext) (s : St) : Bool × St :=
  (e.dbOk s.dbCalls, { s with dbCalls := s.dbCalls + 1 })

/-- Model of `Database::update_job_status`. -/
def updateJobStatus (e : Ext) (s : St) (status : String) : Bool × St :=
  let (ok, s1) := dbStep e s
  if ok then (true, { s1 with job := { s1.job with status := status } })
  else (false, s1)

/-- Model of `Database::update_job_progress`: on success the update is
applied to the job row and appended to the log of visible progress
writes. -/
def updateJobProgress (e : Ext) (s : St) (total processed failed : Nat) : Bool × St :=
  let (ok, s1) := dbStep e s
  if ok then
    (true, { s1 with
      job := { s1.job with
        totalRepos := total
        processedRepos := processed
        failedRepos := failed }
      progressLog := s1.progressLog ++ [(total, processed, failed)] })
  else (false, s1)

/-- Model of `Database::fail_job`: sets status failed and the completion
timestamp. -/
def failJobDb (e : Ext) (s : St) : Bool × St :=
  let (ok, s1) := dbStep e s
  if ok then
    (true, { s1 with
      job := { s1.job with
        status := "failed"
        completedAt := some s1.dbCalls } })
  else (false, s1)

/-- Model of `Database::complete_job`: sets status completed and the
completion timestamp. -/
def completeJobDb (e : Ext) (s : St) : Bool × St :=
  let (ok, s1) := dbStep e s
  if ok then
    (true, { s1 with
      job := { s1.job with
        status := "completed"
        completedAt := some s1.dbCalls } })
  else (false, s1)

/-- Model of `Database::insert_repo_without_readme`; the caller ignores a
failure (it only logs a warning), so no outcome is returned. -/
def insertRepoWithoutReadme (e : Ext) (s : St) (id : Nat) : St :=
  let (ok, s1) := dbStep e s
  if ok then { s1 with reposWithoutReadme := s1.reposWithoutReadme ++ [id] }
  else s1

/-- Model of `Database::upsert_repository`; the caller ignores a failure
(it only logs an error), so no outcome is returned. -/
def upsertRepository (e : Ext) (s : St) (id : Nat) : St :=
  let (ok, s1) := dbStep e s
  if ok then { s1 with reposWithEmbedding := s1.reposWithEmbedding ++ [id] }
  else s1

/-- Model of `Database::update_user_stars`: overwrites the membership row
of the job owner with the given id list and display name. -/
def updateUserStarsDb (e : Ext) (s : St) (ids : List Nat) (username : String) : Bool × St :=
  let (ok, s1) := dbStep e s
  if ok then (true, { s1 with userStars := some (ids, username) })
  else (false, s1)

/-- Model of `Database::existing_repos`: the candidate ids that already
have an embedding or a tracked-unenriched record. -/
def existingRepos (e : Ext) (s : St) (repoIds : List Nat) : Except Unit (List Nat) × St :=
  let (ok, s1) := dbStep e s
  if ok then
    (.ok (repoIds.filter (fun i =>
      s1.reposWithEmbedding.contains i || s1.reposWithoutReadme.contains i)), s1)
  else (.error (), s1)

/-- Model of `OpenAIEmbeddingService::get_embeddings_batch`
(`src/backend-rust/src/embedding/openai.rs`): one provider request; a
response whose embedding count does not match the requested text count is
an error. Embedding payloads are abstracted to `Unit`. -/
def getEmbeddingsBatch (e : Ext) (s : St) (texts : List String) : Except Unit (List Unit) × St :=
  let idx := s.provCalls
  let s1 := { s with provCalls := s.provCalls + 1, embedCalls := s.embedCalls ++ [texts] }
  match e.provider idx texts with
  | none => (.error (), s1)
  | some n =>
    if n = texts.length then (.ok (List.replicate n ()), s1)
    else (.error (), s1)

/-- Sequential sub-batch loop of `get_embeddings`. -/
def getEmbeddingsLoop (e : Ext) (s : St) (batches : List (List String))
    (acc : List Unit) : Except Unit (List Unit) × St :=
  match batches with
  | [] => (.ok acc, s)
  | b :: rest =>
    match getEmbeddingsBatch e s b with
    | (.ok embs, s1) => getEmbeddingsLoop e s1 rest (acc ++ embs)
    | (.error _, s1) => (.error (), s1)

/-- Model of `OpenAIEmbeddingService::get_embeddings`: an empty input
returns immediately, an empty text is a validation error before any
request, and otherwise the texts are sent sequentially in sub-batches of
at most 4. -/
def getEmbeddings (e : Ext) (s : St) (texts : List String) : Except Unit (List Unit) × St :=
  if texts.isEmpty then (.ok [], s)
  else if texts.any (fun t => t.data.isEmpty) then (.error (), s)
  else getEmbeddingsLoop e s (chunksOf 4 texts) []

/-- README enrichment of one repository inside a batch: a successful fetch
stores its (possibly absent) content, a failed fetch leaves the
repository unchanged. -/
def fetchReadme (e : Ext) (r : Repo) : Repo :=
  match e.readme r.id with
  | some content => { r with readme_content := content }
  | none => r

/-- Result collection of `process_repository_batch`
(`src/backend/src/services/semantic_search_manager.rs`): repositories with
README content are kept for embedding, the others are recorded in the
tracked-unenriched table and excluded. -/
def collectProcessed (e : Ext) (s : St) : List Repo → List Repo × St
  | [] => ([], s)
  | r :: rest =>
    match r.readme_content with
    | some _ =>
      let (tl, s1) := collectProcessed e s rest
      (r :: tl, s1)
    | none =>
      let s1 := insertRepoWithoutReadme e s r.id
      collectProcessed e s1 rest

/-- Stores each embedded repository (the zip loop of
`process_repository_batch`). -/
def upsertAll (e : Ext) (s : St) : List Repo → List Unit → St
  | r :: rs, _ :: es => upsertAll e (upsertRepository e s r.id) rs es
  | _, _ => s

/-- Model of `process_repository_batch`: enrich with README content, track
the content-less repositories, embed the rest and store them; returns the
number of repositories that obtained content. -/
def processRepositoryBatch (e : Ext) (s : St) (repos : List Repo) : Except Unit Nat × St :=
  let enriched := repos.map (fetchReadme e)
  let (processedRepos, s1) := collectProcessed e s enriched
  let texts := processedRepos.map repoToEmbeddingText
  match getEmbeddings e s1 texts with
  | (.error _, s2) => (.error (), s2)
  | (.ok embs, s2) =>
    let s3 := upsertAll e s2 processedRepos embs
    (.ok processedRepos.length, s3)

/-- Filter of `find_repos_needing_embeddings`: repositories whose id is
not in the existing-id set. -/
def reposNeedingEmbeddings (existingIds : List Nat) (starred : List Repo) : List Repo :=
  starred.filter (fun r => !(existingIds.contains r.id))

/-- Sequential outer-batch loop of `generate_and_store_embeddings`,
carrying the cumulative processed and failed counters; after each batch,
success or failure, a progress update is attempted (its failure is only
logged). -/
def runBatches (e : Ext) (s : St) (totalRepos alreadyExisting : Nat)
    (batches : List (List Repo)) (pc fc : Nat) : Nat × Nat × St :=
  match batches with
  | [] => (pc, fc, s)
  | batch :: rest =>
    match processRepositoryBatch e s batch with
    | (.ok k, s1) =>
      let pc2 := pc + k
      let s2 := (updateJobProgress e s1 totalRepos (alreadyExisting + pc2) fc).2
      runBatches e s2 totalRepos alreadyExisting rest pc2 fc
    | (.error _, s1) =>
      let fc2 := fc + batch.length
      let s2 := (updateJobProgress e s1 totalRepos (alreadyExisting + pc) fc2).2
      runBatches e s2 totalRepos alreadyExisting rest pc fc2

/-- Model of the private helper `update_user_stars` of the semantic search
manager: look up the authenticated user, then overwrite the membership
row; both steps propagate their error. -/
def updateUserStarsHelper (e : Ext) (s : St) (ids : List Nat) : Except Unit Unit × St :=
  match e.getUser with
  | none => (.error (), s)
  | some username =>
    let (ok, s1) := updateUserStarsDb e s ids username
    if ok then (.ok (), s1) else (.error (), s1)

/-- Model of `generate_and_store_embeddings`
(`src/backend/src/services/semantic_search_manager.rs`): early return on
an empty list; deduplicate against existing ids; process the remaining
repositories in outer batches of 50 with incremental progress writes (or
a single all-processed progress write when nothing is new); finally
overwrite the membership row with all starred ids. -/
def generateAndStoreEmbeddings (e : Ext) (s : St) (starred : List Repo) :
    Except Unit Unit × St :=
  if starred.isEmpty then (.ok (), s)
  else
    let repoIds := starred.map (fun r => r.id)
    match existingRepos e s repoIds with
    | (.error _, s1) => (.error (), s1)
    | (.ok existingIds, s1) =>
      let reposToProcess := reposNeedingEmbeddings existingIds starred
      let totalRepos := starred.length
      let s2 :=
        if reposToProcess.isEmpty then
          (updateJobProgress e s1 totalRepos totalRepos 0).2
        else
          let alreadyExisting := totalRepos - reposToProcess.length
          (runBatches e s1 totalRepos alreadyExisting (chunksOf 50 reposToProcess) 0 0).2.2
      match updateUserStarsHelper e s2 repoIds with
      | (.error _, s3) => (.error (), s3)
      | (.ok _, s3) => (.ok (), s3)

/-- Steps of `JobManager::process_user_stars`
(`src/backend-rust/src/services/job_manager.rs`) before the embedding
pipeline: status write, source fetch, initial progress write with the
fetched total, status write; every failure propagates. -/
def starsPrelude (e : Ext) (s : St) : Except Unit (List Repo) × St :=
  match updateJobStatus e s "Fetching stars..." with
  | (false, s1) => (.error (), s1)
  | (true, s1) =>
    match e.fetchStars with
    | .error _ => (.error (), s1)
    | .ok starred =>
      match updateJobProgress e s1 starred.length 0 0 with
      | (false, s2) => (.error (), s2)
      | (true, s2) =>
        match updateJobStatus e s2 "Creating embeddings..." with
        | (false, s3) => (.error (), s3)
        | (true, s3) => (.ok starred, s3)

/-- Error branch of `process_user_stars` after a pipeline failure: write a
progress update counting every starred repository as failed with zero
processed, then mark the job failed; each write propagates its own
failure, and the branch always returns the pipeline error. -/
def pipelineErrorPath (e : Ext) (s : St) (n : Nat) : Except Unit Unit × St :=
  match updateJobProgress e s n 0 n with
  | (false, s1) => (.error (), s1)
  | (true, s1) =>
    match failJobDb e s1 with
    | (_, s2) => (.error (), s2)

/-- Steps of `process_user_stars` after a successful pipeline: when the id
list is nonempty, look up the authenticated user and overwrite the
membership row again, then mark the job completed; every failure
propagates without marking the job failed. -/
def starsFinish (e : Ext) (s : St) (starred : List Repo) : Except Unit Unit × St :=
  let ids := starred.map (fun r => r.id)
  if ids.isEmpty then
    match completeJobDb e s with
    | (false, s2) => (.error (), s2)
    | (true, s2) => (.ok (), s2)
  else
    match updateUserStarsHelper e s ids with
    | (.error _, s1) => (.error (), s1)
    | (.ok _, s1) =>
      match completeJobDb e s1 with
      | (false, s2) => (.error (), s2)
      | (true, s2) => (.ok (), s2)

/-- Model of `JobManager::process_user_stars`: the body of the spawned
pipeline task for one job. -/
def processUserStars (e : Ext) (s : St) : Except Unit Unit × St :=
  match starsPrelude e s with
  | (.error _, s1) => (.error (), s1)
  | (.ok starred, s1) =>
    match generateAndStoreEmbeddings e s1 starred with
    | (.error _, s2) => pipelineErrorPath e s2 starred.length
    | (.ok _, s2) => starsFinish e s2 starred

/-- Terminal-status check, mirroring `UserJob::is_completed`
(`src/backend/src/types/user_job.rs`). -/
def isTerminalStatus (status : String) : Bool :=
  status == "completed" || status == "failed"

/-! ## Progress-log predicates -/

/-- Processed counter is non-decreasing across consecutive writes. -/
def procMonoB (l : List (Nat × Nat × Nat)) : Bool :=
  pairwiseB (fun a b => decide (a.2.1 ≤ b.2.1)) l

/-- Failed counter is non-decreasing across consecutive writes. -/
def failMonoB (l : List (Nat × Nat × Nat)) : Bool :=
  pairwiseB (fun a b => decide (a.2.2 ≤ b.2.2)) l

/-- Total is identical across consecutive writes. -/
def totalConstB (l : List (Nat × Nat × Nat)) : Bool :=
  pairwiseB (fun a b => a.1 == b.1) l

/-- Every write satisfies processed + failed less or equal total. -/
def boundedSelfB (l : List (Nat × Nat × Nat)) : Bool :=
  l.all (fun w => decide (w.2.1 + w.2.2 ≤ w.1))

/-- Invariant carried along the batch loop: the progress writes so far are
monotone in both counters, at total `T` and bounded by it, and the last
write is below the running processed bound `lastP` and failed bound
`lastF`. -/
def LogInv (T lastP lastF : Nat) (log : List (Nat × Nat × Nat)) : Prop :=
  procMonoB log = true ∧ failMonoB log = true ∧
  (∀ w ∈ log, w.1 = T ∧ w.2.1 + w.2.2 ≤ T) ∧
  (∀ w, log.getLast? = some w → w.2.1 ≤ lastP ∧ w.2.2 ≤ lastF)

/-- Weaker log property delivered to the caller of the pipeline: monotone
counters, constant total `T`, bounded by `T`. -/
def GoodLog (T : Nat) (log : List (Nat × Nat × Nat)) : Prop :=
  procMonoB log = true ∧ failMonoB log = true ∧
  (∀ w ∈ log, w.1 = T ∧ w.2.1 + w.2.2 ≤ T)

/-- Every embedding-provider request recorded so far carries at most 4
texts. -/
def CallsBounded (s : St) : Prop :=
  ∀ c ∈ s.embedCalls, c.length ≤ 4

/-- The store already records the id, either with an embedding or with a
tracked-unenriched marker. -/
def StoreContains (s : St) (i : Nat) : Prop :=
  s.reposWithEmbedding.contains i = true ∨ s.reposWithoutReadme.contains i = true

/-- Fresh run state over the stores left behind by a previous run: new job
record, empty logs, reset call counters, same durable stores. -/
def secondRun (s : St) : St :=
  mkSt s.reposWithEmbedding s.reposWithoutReadme s.userStars

/-! ## Semantic query service -/

/-- Scope of a semantic search, mirroring the Rust enum `SearchScope`. -/
inductive SearchScope where
  | global : SearchScope
  | starred : Int → SearchScope

/-- Outcome oracle for a semantic search request: the query-embedding
outcome, the abstract store rankings, and the success of the
membership-row read. -/
structure SearchExt where
  embedQuery : Option Unit
  rankGlobal : Nat → List (Nat × Int)
  rankStarred : Int → Nat → List (Nat × Int)
  starsLookupOk : Bool

/-- Membership lookup `get_user_starred_repo_ids_by_string`: the stored id
list of the user, empty when no row exists. -/
def lookupStarIds (stars : List (Int × List Nat)) (u : Int) : List Nat :=
  match stars.find? (fun p => p.1 == u) with
  | some p => p.2
  | none => []

/-- Model of `SemanticSearchManager::semantic_search`
(`src/backend/src/services/semantic_search_manager.rs`): empty query is a
validation error; top-k zero short-circuits to an empty result; restricted
scope returns an empty result without embedding the query when the
membership set is empty. The second component counts embedding-provider
calls made. -/
def semanticSearch (e : SearchExt) (stars : List (Int × List Nat)) (query : String)
    (topK : Nat) (scope : SearchScope) : Except Unit (List (Nat × Int)) × Nat :=
  if query.data.isEmpty then (.error (), 0)
  else if topK = 0 then (.ok [], 0)
  else
    match scope with
    | .global =>
      match e.embedQuery with
      | none => (.error (), 1)
      | some _ => (.ok (e.rankGlobal topK), 1)
    | .starred u =>
      if e.starsLookupOk then
        let ids := lookupStarIds stars u
        if ids.isEmpty then (.ok [], 0)
        else
          match e.embedQuery with
          | none => (.error (), 1)
          | some _ => (.ok (e.rankStarred u topK), 1)
      else (.error (), 0)

/-! ## Job orchestrator: registry and crash recovery -/

/-- Durable job row as seen by the orchestrator. -/
structure JobRow where
  id : Nat
  userId : Int
  status : String
  totalRepos : Nat
  processedRepos : Nat
  failedRepos : Nat
  completedAt : Option Nat
  deriving Repr, DecidableEq

/-- Orchestrator state: the in-memory active-job registry (user id to job
id; the task handle is abstracted away), the durable job rows, and the
next store-assigned job id. -/
structure ManagerSt where
  activeJobs : List (Int × Nat)
  jobs : List JobRow
  nextJobId : Nat
  deriving Repr, DecidableEq

/-- Outcome of `start_job`. -/
inductive StartOutcome where
  | alreadyRunning : StartOutcome
  | dbError : StartOutcome
  | started : Nat → StartOutcome
  deriving Repr, DecidableEq

/-- Model of `Database::create_job`: inserts a fresh pending row and
returns its store-assigned id. -/
def createJob (m : ManagerSt) (userId : Int) : Nat × ManagerSt :=
  (m.nextJobId,
   { m with
     jobs := m.jobs ++ [{
       id := m.nextJobId
       userId := userId
       status := "pending"
       totalRepos := 0
       processedRepos := 0
       failedRepos := 0
       completedAt := none }]
     nextJobId := m.nextJobId + 1 })

/-- Model of `JobManager::start_job`: refuse when the registry already
holds an entry for the user; otherwise create the durable record (whose
insert outcome is `createOk`) and only then register the user. -/
def startJob (m : ManagerSt) (userId : Int) (createOk : Bool) : StartOutcome × ManagerSt :=
  if m.activeJobs.any (fun p => p.1 == userId) then (.alreadyRunning, m)
  else if createOk then
    let (jobId, m1) := createJob m userId
    (.started jobId, { m1 with activeJobs := m1.activeJobs ++ [(userId, jobId)] })
  else (.dbError, m)

/-- Registry removal performed by the spawned task when it ends
(`active_jobs.remove(&user_id)` at the end of the task closure). -/
def taskFinished (m : ManagerSt) (userId : Int) : ManagerSt :=
  { m with activeJobs := m.activeJobs.filter (fun p => p.1 != userId) }

/-- Modelled from the spec: `Database::get_incomplete_jobs` is called by
`JobManager::initialize` but is absent from the sources; the spec states
it scans durable storage for jobs left in any non-terminal status, that
is, not completed and not failed. -/
def getIncompleteJobs (jobs : List JobRow) : List JobRow :=
  jobs.filter (fun j => !(isTerminalStatus j.status))

/-- Effect of `Database::fail_job` on one row: status failed and the
completion timestamp set. -/
def failJobRow (now : Nat) (j : JobRow) : JobRow :=
  { j with status := "failed", completedAt := some now }

/-- Modelled from the spec: `Database::fail_jobs` is called by
`JobManager::initialize` but is absent from the sources; the spec states
it marks every job in the given id list failed in a single bulk update,
with the same per-row effect as the in-source `fail_job`. -/
def failJobsById (ids : List Nat) (now : Nat) (jobs : List JobRow) : List JobRow :=
  jobs.map (fun j => if ids.contains j.id then failJobRow now j else j)

/-- Model of `JobManager::initialize`: find the jobs in a non-terminal
status and mark them all failed. -/
def initializeJobs (now : Nat) (jobs : List JobRow) : List JobRow :=
  failJobsById ((getIncompleteJobs jobs).map (fun j => j.id)) now jobs

/-! ## Concrete oracles used by counterexamples and witnesses -/

/-- Single fresh repository used by the concrete runs. -/
def repoA : Repo :=
  { id := 1, name := "alpha", owner := "acme", description := none,
    readme_content := none, topics := [] }

/-- Oracle for the progress-reset counterexample: one fresh repository,
every store call succeeds, the batch succeeds, but the authenticated-user
lookup inside the final membership write of the pipeline fails, driving
the run into the error branch after progress already advanced. -/
def extResetProgress : Ext :=
  { fetchStars := .ok [repoA]
    readme := fun _ => some (some "readme text")
    provider := fun _ ts => some ts.length
    getUser := none
    dbOk := fun _ => true }

/-- Oracle for the lost-terminal-status counterexample: everything
succeeds except the eighth database call of the run, which is the final
membership overwrite performed by the job manager after the pipeline
already finished. -/
def extLostTerminal : Ext :=
  { fetchStars := .ok [repoA]
    readme := fun _ => some (some "readme text")
    provider := fun _ ts => some ts.length
    getUser := some "acme"
    dbOk := fun i => i != 7 }

/-- Oracle for the failed-membership-write witness: everything succeeds
except the seventh database call of the run, which is the membership
overwrite performed inside the embedding pipeline. -/
def extInnerStarsFail : Ext :=
  { fetchStars := .ok [repoA]
    readme := fun _ => some (some "readme text")
    provider := fun _ ts => some ts.length
    getUser := some "acme"
    dbOk := fun i => i != 6 }

/-- Oracle whose provider always answers with zero embeddings, a count
mismatch for every nonempty request. -/
def extMismatch : Ext :=
  { fetchStars := .ok [repoA]
    readme := fun _ => some (some "readme text")
    provider := fun _ _ => some 0
    getUser := some "acme"
    dbOk := fun _ => true }

/-- Oracle where every interaction succeeds and the source returns the
single fresh repository. -/
def extAllGood : Ext :=
  { fetchStars := .ok [repoA]
    readme := fun _ => some (some "readme text")
    provider := fun _ ts => some ts.length
    getUser := some "acme"
    dbOk := fun _ => true }

/-- Oracle where the source fetch returns an empty starred list and
everything else succeeds. -/
def extEmptyStars : Ext :=
  { fetchStars := .ok []
    readme := fun _ => some (some "readme text")
    provider := fun _ ts => some ts.length
    getUser := some "acme"
    dbOk := fun _ => true }

/-- A starred repository with a given id and no inline README, as returned
by the stars fetch. -/
def repoC7 (k : Nat) : Repo :=
  { id := k, name := "r", owner := "o", description := none,
    readme_content := none, topics := [] }

/-- Ten distinct starred repositories for the partial-failure scenario. -/
def starsC7 : List Repo :=
  [repoC7 1, repoC7 2, repoC7 3, repoC7 4, repoC7 5,
   repoC7 6, repoC7 7, repoC7 8, repoC7 9, repoC7 10]

/-- Oracle for the partial-failure scenario: ten repositories, the README
fetch of repository 5 fails, every other interaction succeeds. -/
def extC7 : Ext :=
  { fetchStars := .ok starsC7
    readme := fun i => if i = 5 then none else some (some "text")
    provider := fun _ ts => some ts.length
    getUser := some "acme"
    dbOk := fun _ => true }

/-- Orchestrator state with one active job for user 5, used as a concrete
input. -/
def exMgr : ManagerSt :=
  { activeJobs := [(5, 0)]
    jobs := [{ id := 0, userId := 5, status := "pending", totalRepos := 0,
               processedRepos := 0, failedRepos := 0, completedAt := none }]
    nextJobId := 1 }

/-- Concrete job rows for the crash-recovery witness: one completed, one
stuck in a progress label, one pending. -/
def exJobs : List JobRow :=
  [{ id := 0, userId := 5, status := "completed", totalRepos := 3,
     processedRepos := 3, failedRepos := 0, completedAt := some 1 },
   { id := 1, userId := 6, status := "Creating embeddings...", totalRepos := 4,
     processedRepos := 2, failedRepos := 0, completedAt := none },
   { id := 2, userId := 7, status := "pending", totalRepos := 0,
     processedRepos := 0, failedRepos := 0, completedAt := none }]

/-- Concrete search oracle where every interaction succeeds. -/
def exSearchExt : SearchExt :=
  { embedQuery := some ()
    rankGlobal := fun _ => []
    rankStarred := fun _ _ => []
    starsLookupOk := true }

/-! ## Helper lemmas -/

theorem chunksOfAux_fuel {n : Nat} (hn : n ≠ 0) :
    ∀ (f1 : Nat) (l : List α) (f2 : Nat), l.length ≤ f1 → l.length ≤ f2 →
      chunksOfAux n f1 l = chunksOfAux n f2 l := by
  intro f1
  induction f1 with
  | zero =>
    intro l f2 h1 h2
    have : l = [] := List.eq_nil_of_length_eq_zero (Nat.le_zero.mp h1)
    subst this
    cases f2 <;> rfl
  | succ f ih =>
    intro l f2 h1 h2
    cases l with
    | nil => cases f2 <;> rfl
    | cons a t =>
      cases f2 with
      | zero => simp at h2
      | succ f2 =>
        show (a :: t).take n :: chunksOfAux n f ((a :: t).drop n) =
          (a :: t).take n :: chunksOfAux n f2 ((a :: t).drop n)
        congr 1
        apply ih
        · simp only [List.length_drop, List.length_cons] at h1 ⊢
          omega
        · simp only [List.length_drop, List.length_cons] at h2 ⊢
          omega

theorem chunksOf_nil (n : Nat) : chunksOf n ([] : List α) = [] := by
  unfold chunksOf
  split <;> rfl

theorem chunksOf_cons_eq {n : Nat} {l : List α} (hn : n ≠ 0) (hl : l ≠ []) :
    chunksOf n l = l.take n :: chunksOf n (l.drop n) := by
  cases l with
  | nil => exact absurd rfl hl
  | cons a t =>
    unfold chunksOf
    rw [if_neg hn, if_neg hn]
    show (a :: t).take n :: chunksOfAux n t.length ((a :: t).drop n) = _
    congr 1
    apply chunksOfAux_fuel hn
    · simp only [List.length_drop, List.length_cons]
      omega
    · exact le_rfl

theorem chunksOf_length_le {n : Nat} (hn : n ≠ 0) {l : List α} :
    ∀ c ∈ chunksOf n l, c.length ≤ n := by
  have H : ∀ (k : Nat) (l : List α), l.length ≤ k → ∀ c ∈ chunksOf n l, c.length ≤ n := by
    intro k
    induction k with
    | zero =>
      intro l h
      have : l = [] := List.eq_nil_of_length_eq_zero (Nat.le_zero.mp h)
      subst this
      simp [chunksOf_nil]
    | succ k ih =>
      intro l h c hc
      cases l with
      | nil => simp [chunksOf_nil] at hc
      | cons a t =>
        rw [chunksOf_cons_eq hn (by simp)] at hc
        rcases List.mem_cons.mp hc with rfl | hc
        · simp only [List.length_take]
          exact min_le_left n (a :: t).length
        · refine ih _ ?_ c hc
          simp only [List.length_drop, List.length_cons] at h ⊢
          omega
  exact H l.length l le_rfl

theorem chunksOf_flatten {n : Nat} (hn : n ≠ 0) {l : List α} :
    (chunksOf n l).flatten = l := by
  have H : ∀ (k : Nat) (l : List α), l.length ≤ k → (chunksOf n l).flatten = l := by
    intro k
    induction k with
    | zero =>
      intro l h
      have : l = [] := List.eq_nil_of_length_eq_zero (Nat.le_zero.mp h)
      subst this
      simp [chunksOf_nil]
    | succ k ih =>
      intro l h
      cases l with
      | nil => simp [chunksOf_nil]
      | cons a t =>
        rw [chunksOf_cons_eq hn (by simp)]
        have hd : ((a :: t).drop n).length ≤ k := by
          simp only [List.length_drop, List.length_cons] at h ⊢
          omega
        simp [ih _ hd]
  exact H l.length l le_rfl

theorem chunksOf_singleton {n : Nat} {l : List α} (hn : n ≠ 0) (hl : l ≠ [])
    (hlen : l.length ≤ n) : chunksOf n l = [l] := by
  rw [chunksOf_cons_eq hn hl, List.take_of_length_le hlen,
    List.drop_eq_nil_of_le hlen, chunksOf_nil]

theorem exists_chunk_of_mem {n : Nat} {l : List α} (hn : n ≠ 0) {x : α}
    (hx : x ∈ l) : ∃ c ∈ chunksOf n l, x ∈ c := by
  have := chunksOf_flatten (l := l) hn
  rw [← this] at hx
  exact List.mem_flatten.mp hx

theorem pairwiseB_nil (r : α → α → Bool) : pairwiseB r [] = true := rfl

theorem pairwiseB_single (r : α → α → Bool) (a : α) : pairwiseB r [a] = true := rfl

theorem pairwiseB_concat {r : α → α → Bool} {x : α} {l : List α}
    (h : pairwiseB r l = true) (hx : ∀ a, l.getLast? = some a → r a x = true) :
    pairwiseB r (l ++ [x]) = true := by
  induction l with
  | nil => exact pairwiseB_single r x
  | cons a t ih =>
    cases t with
    | nil =>
      have hax := hx a rfl
      show (r a x && pairwiseB r [x]) = true
      rw [Bool.and_eq_true]
      exact ⟨hax, pairwiseB_single r x⟩
    | cons b u =>
      have h' : (r a b && pairwiseB r (b :: u)) = true := h
      rw [Bool.and_eq_true] at h'
      have hlast : ∀ c, (b :: u).getLast? = some c → r c x = true := by
        intro c hc
        exact hx c (by rw [List.getLast?_cons_cons]; exact hc)
      show (r a b && pairwiseB r ((b :: u) ++ [x])) = true
      rw [Bool.and_eq_true]
      exact ⟨h'.1, ih h'.2 hlast⟩

theorem pairwiseB_dropLast {r : α → α → Bool} :
    ∀ {l : List α}, pairwiseB r l = true → pairwiseB r l.dropLast = true
  | [], _ => rfl
  | [_], _ => rfl
  | [_, _], _ => rfl
  | a :: b :: c :: t, h => by
    have h' : (r a b && pairwiseB r (b :: c :: t)) = true := h
    rw [Bool.and_eq_true] at h'
    have ih := pairwiseB_dropLast (r := r) (l := b :: c :: t) h'.2
    rw [List.dropLast_cons₂] at ih
    rw [List.dropLast_cons₂, List.dropLast_cons₂]
    show (r a b && pairwiseB r (b :: (c :: t).dropLast)) = true
    rw [Bool.and_eq_true]
    exact ⟨h'.1, ih⟩

/-! ## Frame lemmas: which state fields each operation leaves unchanged -/

theorem updateJobStatus_frame (e : Ext) (s : St) (st : String) :
    (updateJobStatus e s st).2.progressLog = s.progressLog ∧
    (updateJobStatus e s st).2.embedCalls = s.embedCalls ∧
    (updateJobStatus e s st).2.userStars = s.userStars := by
  unfold updateJobStatus dbStep
  dsimp only
  split <;> exact ⟨rfl, rfl, rfl⟩

theorem updateJobProgress_log (e : Ext) (s : St) (t p f : Nat) :
    (updateJobProgress e s t p f).2.progressLog =
      s.progressLog ++ (if e.dbOk s.dbCalls then [(t, p, f)] else []) ∧
    (updateJobProgress e s t p f).2.embedCalls = s.embedCalls ∧
    (updateJobProgress e s t p f).2.userStars = s.userStars ∧
    (updateJobProgress e s t p f).1 = e.dbOk s.dbCalls := by
  unfold updateJobProgress dbStep
  dsimp only
  split <;> rename_i h
  · exact ⟨rfl, rfl, rfl, h.symm⟩
  · rw [List.append_nil]
    exact ⟨rfl, rfl, rfl, (Bool.eq_false_iff.mpr h).symm⟩

theorem failJobDb_frame (e : Ext) (s : St) :
    (failJobDb e s).2.progressLog = s.progressLog ∧
    (failJobDb e s).2.embedCalls = s.embedCalls ∧
    (failJobDb e s).2.userStars = s.userStars := by
  unfold failJobDb dbStep
  dsimp only
  split <;> exact ⟨rfl, rfl, rfl⟩

theorem completeJobDb_frame (e : Ext) (s : St) :
    (completeJobDb e s).2.progressLog = s.progressLog ∧
    (completeJobDb e s).2.embedCalls = s.embedCalls ∧
    (completeJobDb e s).2.userStars = s.userStars := by
  unfold completeJobDb dbStep
  dsimp only
  split <;> exact ⟨rfl, rfl, rfl⟩

theorem insertRepoWithoutReadme_frame (e : Ext) (s : St) (id : Nat) :
    (insertRepoWithoutReadme e s id).progressLog = s.progressLog ∧
    (insertRepoWithoutReadme e s id).embedCalls = s.embedCalls ∧
    (insertRepoWithoutReadme e s id).userStars = s.userStars ∧
    (insertRepoWithoutReadme e s id).job = s.job := by
  unfold insertRepoWithoutReadme dbStep
  dsimp only
  split <;> exact ⟨rfl, rfl, rfl, rfl⟩

theorem upsertRepository_frame (e : Ext) (s : St) (id : Nat) :
    (upsertRepository e s id).progressLog = s.progressLog ∧
    (upsertRepository e s id).embedCalls = s.embedCalls ∧
    (upsertRepository e s id).userStars = s.userStars ∧
    (upsertRepository e s id).job = s.job := by
  unfold upsertRepository dbStep
  dsimp only
  split <;> exact ⟨rfl, rfl, rfl, rfl⟩

theorem updateUserStarsDb_frame (e : Ext) (s : St) (ids : List Nat) (un : String) :
    (updateUserStarsDb e s ids un).2.progressLog = s.progressLog ∧
    (updateUserStarsDb e s ids un).2.embedCalls = s.embedCalls ∧
    (updateUserStarsDb e s ids un).2.job = s.job := by
  unfold updateUserStarsDb dbStep
  dsimp only
  split <;> exact ⟨rfl, rfl, rfl⟩

theorem updateUserStarsHelper_frame (e : Ext) (s : St) (ids : List Nat) :
    (updateUserStarsHelper e s ids).2.progressLog = s.progressLog ∧
    (updateUserStarsHelper e s ids).2.embedCalls = s.embedCalls ∧
    (updateUserStarsHelper e s ids).2.job = s.job := by
  unfold updateUserStarsHelper
  cases e.getUser with
  | none => exact ⟨rfl, rfl, rfl⟩
  | some un =>
    dsimp only
    have h := updateUserStarsDb_frame e s ids un
    split <;> exact h

theorem existingRepos_frame (e : Ext) (s : St) (ids : List Nat) :
    (existingRepos e s ids).2.progressLog = s.progressLog ∧
    (existingRepos e s ids).2.embedCalls = s.embedCalls ∧
    (existingRepos e s ids).2.userStars = s.userStars ∧
    (existingRepos e s ids).2.job = s.job ∧
    (existingRepos e s ids).2.reposWithEmbedding = s.reposWithEmbedding ∧
    (existingRepos e s ids).2.reposWithoutReadme = s.reposWithoutReadme := by
  unfold existingRepos dbStep
  dsimp only
  split <;> exact ⟨rfl, rfl, rfl, rfl, rfl, rfl⟩

theorem getEmbeddingsBatch_frame (e : Ext) (s : St) (ts : List String) :
    (getEmbeddingsBatch e s ts).2.progressLog = s.progressLog ∧
    (getEmbeddingsBatch e s ts).2.embedCalls = s.embedCalls ++ [ts] ∧
    (getEmbeddingsBatch e s ts).2.userStars = s.userStars ∧
    (getEmbeddingsBatch e s ts).2.job = s.job ∧
    (getEmbeddingsBatch e s ts).2.reposWithEmbedding = s.reposWithEmbedding ∧
    (getEmbeddingsBatch e s ts).2.reposWithoutReadme = s.reposWithoutReadme ∧
    (getEmbeddingsBatch e s ts).2.dbCalls = s.dbCalls := by
  unfold getEmbeddingsBatch
  dsimp only
  split <;> first
    | exact ⟨rfl, rfl, rfl, rfl, rfl, rfl, rfl⟩
    | (split <;> exact ⟨rfl, rfl, rfl, rfl, rfl, rfl, rfl⟩)

theorem getEmbeddingsLoop_log (e : Ext) :
    ∀ (batches : List (List String)) (s : St) (acc : List Unit),
    (getEmbeddingsLoop e s batches acc).2.progressLog = s.progressLog ∧
    (getEmbeddingsLoop e s batches acc).2.userStars = s.userStars ∧
    (getEmbeddingsLoop e s batches acc).2.job = s.job ∧
    (getEmbeddingsLoop e s batches acc).2.reposWithEmbedding = s.reposWithEmbedding ∧
    (getEmbeddingsLoop e s batches acc).2.reposWithoutReadme = s.reposWithoutReadme ∧
    (getEmbeddingsLoop e s batches acc).2.dbCalls = s.dbCalls := by
  intro batches
  induction batches with
  | nil => intro s acc; exact ⟨rfl, rfl, rfl, rfl, rfl, rfl⟩
  | cons b rest ih =>
    intro s acc
    unfold getEmbeddingsLoop
    have hb := getEmbeddingsBatch_frame e s b
    rcases hanal : getEmbeddingsBatch e s b with ⟨res, s1⟩
    rw [hanal] at hb
    cases res with
    | ok embs =>
      dsimp only
      have hr := ih s1 (acc ++ embs)
      exact ⟨hr.1.trans hb.1, hr.2.1.trans hb.2.2.1, hr.2.2.1.trans hb.2.2.2.1,
        hr.2.2.2.1.trans hb.2.2.2.2.1, hr.2.2.2.2.1.trans hb.2.2.2.2.2.1,
        hr.2.2.2.2.2.trans hb.2.2.2.2.2.2⟩
    | error err =>
      dsimp only
      exact ⟨hb.1, hb.2.2.1, hb.2.2.2.1, hb.2.2.2.2.1, hb.2.2.2.2.2.1, hb.2.2.2.2.2.2⟩

theorem getEmbeddings_log (e : Ext) (s : St) (ts : List String) :
    (getEmbeddings e s ts).2.progressLog = s.progressLog ∧
    (getEmbeddings e s ts).2.userStars = s.userStars ∧
    (getEmbeddings e s ts).2.job = s.job ∧
    (getEmbeddings e s ts).2.reposWithEmbedding = s.reposWithEmbedding ∧
    (getEmbeddings e s ts).2.reposWithoutReadme = s.reposWithoutReadme ∧
    (getEmbeddings e s ts).2.dbCalls = s.dbCalls := by
  unfold getEmbeddings
  split
  · exact ⟨rfl, rfl, rfl, rfl, rfl, rfl⟩
  · split
    · exact ⟨rfl, rfl, rfl, rfl, rfl, rfl⟩
    · exact getEmbeddingsLoop_log e (chunksOf 4 ts) s []

theorem collectProcessed_frame (e : Ext) :
    ∀ (repos : List Repo) (s : St),
    (collectProcessed e s repos).2.progressLog = s.progressLog ∧
    (collectProcessed e s repos).2.embedCalls = s.embedCalls ∧
    (collectProcessed e s repos).2.userStars = s.userStars ∧
    (collectProcessed e s repos).2.job = s.job ∧
    (collectProcessed e s repos).1.length ≤ repos.length := by
  intro repos
  induction repos with
  | nil => intro s; exact ⟨rfl, rfl, rfl, rfl, Nat.le_refl 0⟩
  | cons r rest ih =>
    intro s
    unfold collectProcessed
    cases hr : r.readme_content with
    | some c =>
      dsimp only
      rcases h2 : collectProcessed e s rest with ⟨tl, s1⟩
      have hi := ih s
      rw [h2] at hi
      dsimp only
      refine ⟨hi.1, hi.2.1, hi.2.2.1, hi.2.2.2.1, ?_⟩
      simpa using Nat.succ_le_succ hi.2.2.2.2
    | none =>
      dsimp only
      have hins := insertRepoWithoutReadme_frame e s r.id
      have hi := ih (insertRepoWithoutReadme e s r.id)
      refine ⟨hi.1.trans hins.1, hi.2.1.trans hins.2.1, hi.2.2.1.trans hins.2.2.1,
        hi.2.2.2.1.trans hins.2.2.2, ?_⟩
      exact le_trans hi.2.2.2.2 (Nat.le_succ _)

theorem upsertAll_frame (e : Ext) :
    ∀ (rs : List Repo) (embs : List Unit) (s : St),
    (upsertAll e s rs embs).progressLog = s.progressLog ∧
    (upsertAll e s rs embs).embedCalls = s.embedCalls ∧
    (upsertAll e s rs embs).userStars = s.userStars ∧
    (upsertAll e s rs embs).job = s.job := by
  intro rs
  induction rs with
  | nil => intro embs s; cases embs <;> exact ⟨rfl, rfl, rfl, rfl⟩
  | cons r rt ih =>
    intro embs s
    cases embs with
    | nil => exact ⟨rfl, rfl, rfl, rfl⟩
    | cons emb et =>
      unfold upsertAll
      have h1 := upsertRepository_frame e s r.id
      have h2 := ih et (upsertRepository e s r.id)
      exact ⟨h2.1.trans h1.1, h2.2.1.trans h1.2.1, h2.2.2.1.trans h1.2.2.1,
        h2.2.2.2.trans h1.2.2.2⟩

theorem processRepositoryBatch_spec (e : Ext) (s : St) (repos : List Repo) :
    (processRepositoryBatch e s repos).2.progressLog = s.progressLog ∧
    (processRepositoryBatch e s repos).2.userStars = s.userStars ∧
    (processRepositoryBatch e s repos).2.job = s.job ∧
    (∀ k, (processRepositoryBatch e s repos).1 = .ok k → k ≤ repos.length) := by
  unfold processRepositoryBatch
  dsimp only
  rcases hc : collectProcessed e s (repos.map (fetchReadme e)) with ⟨pr, s1⟩
  have hcf := collectProcessed_frame e (repos.map (fetchReadme e)) s
  rw [hc] at hcf
  dsimp only
  have hg := getEmbeddings_log e s1 (pr.map repoToEmbeddingText)
  rcases hge : getEmbeddings e s1 (pr.map repoToEmbeddingText) with ⟨res, s2⟩
  rw [hge] at hg
  cases res with
  | error err =>
    refine ⟨hg.1.trans hcf.1, hg.2.1.trans hcf.2.2.1, hg.2.2.1.trans hcf.2.2.2.1, ?_⟩
    intro k hk
    exact absurd hk (by simp)
  | ok embs =>
    have hu := upsertAll_frame e pr embs s2
    refine ⟨hu.1.trans (hg.1.trans hcf.1), hu.2.2.1.trans (hg.2.1.trans hcf.2.2.1),
      hu.2.2.2.trans (hg.2.2.1.trans hcf.2.2.2.1), ?_⟩
    intro k hk
    have hkk : pr.length = k := by
      have := Except.ok.inj hk
      exact this
    rw [← hkk]
    calc pr.length ≤ (repos.map (fetchReadme e)).length := hcf.2.2.2.2
    _ = repos.length := List.length_map _ _

theorem runBatches_cons_ok {e : Ext} {s s1 : St} {batch : List Repo} {k : Nat}
    (T already : Nat) (rest : List (List Repo)) (pc fc : Nat)
    (h : processRepositoryBatch e s batch = (.ok k, s1)) :
    runBatches e s T already (batch :: rest) pc fc =
      runBatches e ((updateJobProgress e s1 T (already + (pc + k)) fc).2) T already rest
        (pc + k) fc := by
  conv_lhs => rw [runBatches]
  rw [h]

theorem runBatches_cons_err {e : Ext} {s s1 : St} {batch : List Repo}
    (T already : Nat) (rest : List (List Repo)) (pc fc : Nat)
    (h : processRepositoryBatch e s batch = (.error (), s1)) :
    runBatches e s T already (batch :: rest) pc fc =
      runBatches e ((updateJobProgress e s1 T (already + pc) (fc + batch.length)).2) T already
        rest pc (fc + batch.length) := by
  conv_lhs => rw [runBatches]
  rw [h]

theorem LogInv_mono {T p f p2 f2 : Nat} {log : List (Nat × Nat × Nat)}
    (h : LogInv T p f log) (hp : p ≤ p2) (hf : f ≤ f2) : LogInv T p2 f2 log :=
  ⟨h.1, h.2.1, h.2.2.1, fun w hw =>
    ⟨le_trans (h.2.2.2 w hw).1 hp, le_trans (h.2.2.2 w hw).2 hf⟩⟩

theorem LogInv_append {T p f p2 f2 : Nat} {log : List (Nat × Nat × Nat)}
    (h : LogInv T p f log) (hp : p ≤ p2) (hf : f ≤ f2) (hb : p2 + f2 ≤ T) :
    LogInv T p2 f2 (log ++ [(T, p2, f2)]) := by
  refine ⟨?_, ?_, ?_, ?_⟩
  · refine pairwiseB_concat h.1 ?_
    intro a ha
    have h1 := (h.2.2.2 a ha).1
    simp only [decide_eq_true_eq]
    omega
  · refine pairwiseB_concat h.2.1 ?_
    intro a ha
    have h1 := (h.2.2.2 a ha).2
    simp only [decide_eq_true_eq]
    omega
  · intro w hw
    rcases List.mem_append.mp hw with hw | hw
    · exact h.2.2.1 w hw
    · rcases List.mem_singleton.mp hw with rfl
      exact ⟨rfl, hb⟩
  · intro w hw
    rw [List.getLast?_concat] at hw
    rcases Option.some.inj hw with rfl
    exact ⟨le_rfl, le_rfl⟩

theorem LogInv_progress_write (e : Ext) (s : St) {T p f : Nat} (p2 f2 : Nat)
    (h : LogInv T p f s.progressLog) (hp : p ≤ p2) (hf : f ≤ f2) (hb : p2 + f2 ≤ T) :
    LogInv T p2 f2 ((updateJobProgress e s T p2 f2).2.progressLog) := by
  rw [(updateJobProgress_log e s T p2 f2).1]
  split
  · exact LogInv_append h hp hf hb
  · rw [List.append_nil]
    exact LogInv_mono h hp hf

theorem runBatches_inv (e : Ext) (T already : Nat) :
    ∀ (batches : List (List Repo)) (s : St) (pc fc : Nat),
    already + pc + fc + (batches.map List.length).sum ≤ T →
    LogInv T (already + pc) fc s.progressLog →
    pc ≤ (runBatches e s T already batches pc fc).1 ∧
    fc ≤ (runBatches e s T already batches pc fc).2.1 ∧
    already + (runBatches e s T already batches pc fc).1 +
      (runBatches e s T already batches pc fc).2.1 ≤ T ∧
    LogInv T (already + (runBatches e s T already batches pc fc).1)
      (runBatches e s T already batches pc fc).2.1
      (runBatches e s T already batches pc fc).2.2.progressLog := by
  intro batches
  induction batches with
  | nil =>
    intro s pc fc hsum hinv
    simp only [List.map_nil, List.sum_nil] at hsum
    exact ⟨le_rfl, le_rfl, show already + pc + fc ≤ T by omega, hinv⟩
  | cons batch rest ih =>
    intro s pc fc hsum hinv
    simp only [List.map_cons, List.sum_cons] at hsum
    rcases hb : processRepositoryBatch e s batch with ⟨res, s1⟩
    have hbs := processRepositoryBatch_spec e s batch
    rw [hb] at hbs
    cases res with
    | ok k =>
      have hk : k ≤ batch.length := hbs.2.2.2 k rfl
      rw [runBatches_cons_ok T already rest pc fc hb]
      have hinv1 : LogInv T (already + pc) fc s1.progressLog := by
        rw [hbs.1]; exact hinv
      have hinv2 : LogInv T (already + (pc + k)) fc
          ((updateJobProgress e s1 T (already + (pc + k)) fc).2.progressLog) :=
        LogInv_progress_write e s1 (already + (pc + k)) fc hinv1 (by omega)
          le_rfl (by omega)
      have hr := ih ((updateJobProgress e s1 T (already + (pc + k)) fc).2) (pc + k) fc
        (by omega) hinv2
      exact ⟨le_trans (Nat.le_add_right pc k) hr.1, hr.2.1, hr.2.2.1, hr.2.2.2⟩
    | error err =>
      cases err
      rw [runBatches_cons_err T already rest pc fc hb]
      have hinv1 : LogInv T (already + pc) fc s1.progressLog := by
        rw [hbs.1]; exact hinv
      have hinv2 : LogInv T (already + pc) (fc + batch.length)
          ((updateJobProgress e s1 T (already + pc) (fc + batch.length)).2.progressLog) :=
        LogInv_progress_write e s1 (already + pc) (fc + batch.length) hinv1 le_rfl
          (by omega) (by omega)
      have hr := ih ((updateJobProgress e s1 T (already + pc) (fc + batch.length)).2) pc
        (fc + batch.length) (by omega) hinv2
      exact ⟨hr.1, le_trans (Nat.le_add_right fc batch.length) hr.2.1, hr.2.2.1, hr.2.2.2⟩

theorem LogInv_single (n : Nat) : LogInv n 0 0 [(n, 0, 0)] := by
  refine ⟨pairwiseB_single _ _, pairwiseB_single _ _, ?_, ?_⟩
  · intro w hw
    rcases List.mem_singleton.mp hw with rfl
    refine ⟨rfl, ?_⟩
    show 0 + 0 ≤ n
    omega
  · intro w hw
    rcases Option.some.inj hw with rfl
    exact ⟨le_rfl, le_rfl⟩

theorem totalConstB_of_all {T : Nat} : ∀ {log : List (Nat × Nat × Nat)},
    (∀ w ∈ log, w.1 = T) → totalConstB log = true
  | [], _ => rfl
  | [_], _ => rfl
  | a :: b :: t, h => by
    show ((a.1 == b.1) && pairwiseB (fun a b => a.1 == b.1) (b :: t)) = true
    rw [Bool.and_eq_true]
    refine ⟨?_, totalConstB_of_all (fun w hw => h w (List.mem_cons_of_mem a hw))⟩
    rw [h a (by simp), h b (by simp)]
    exact beq_self_eq_true T

theorem boundedSelfB_of_all {log : List (Nat × Nat × Nat)}
    (h : ∀ w ∈ log, w.2.1 + w.2.2 ≤ w.1) : boundedSelfB log = true := by
  simp only [boundedSelfB, List.all_eq_true]
  intro w hw
  simpa using h w hw

theorem starsFinish_frame (e : Ext) (s : St) (starred : List Repo) :
    (starsFinish e s starred).2.progressLog = s.progressLog ∧
    (starsFinish e s starred).2.embedCalls = s.embedCalls := by
  unfold starsFinish
  dsimp only
  split
  · split <;> rename_i s2 hcj
    all_goals {
      have hc := completeJobDb_frame e s
      rw [hcj] at hc
      exact ⟨hc.1, hc.2.1⟩ }
  · split <;> rename_i u s1 hh
    · have hf := updateUserStarsHelper_frame e s (starred.map fun r => r.id)
      rw [hh] at hf
      exact ⟨hf.1, hf.2.1⟩
    · have hf := updateUserStarsHelper_frame e s (starred.map fun r => r.id)
      rw [hh] at hf
      split <;> rename_i s2 hcj
      all_goals {
        have hc := completeJobDb_frame e s1
        rw [hcj] at hc
        exact ⟨hc.1.trans hf.1, hc.2.1.trans hf.2.1⟩ }

theorem pipelineErrorPath_spec (e : Ext) (s : St) (n : Nat) :
    (pipelineErrorPath e s n).1 = .error () ∧
    (pipelineErrorPath e s n).2.progressLog =
      s.progressLog ++ (if e.dbOk s.dbCalls then [(n, 0, n)] else []) ∧
    (pipelineErrorPath e s n).2.embedCalls = s.embedCalls := by
  unfold pipelineErrorPath
  have hu := updateJobProgress_log e s n 0 n
  rcases hup : updateJobProgress e s n 0 n with ⟨ok, s1⟩
  rw [hup] at hu
  cases ok with
  | false => exact ⟨rfl, hu.1, hu.2.1⟩
  | true =>
    dsimp only
    rcases hfj : failJobDb e s1 with ⟨ok2, s2⟩
    have hf := failJobDb_frame e s1
    rw [hfj] at hf
    cases ok2 <;> exact ⟨rfl, hf.1.trans hu.1, hf.2.1.trans hu.2.1⟩

theorem starsPrelude_spec (e : Ext) (s : St) :
    ((starsPrelude e s).1 = .error () ∧
      ((starsPrelude e s).2.progressLog = s.progressLog ∨
        ∃ n, (starsPrelude e s).2.progressLog = s.progressLog ++ [(n, 0, 0)])) ∨
    (∃ starred, (starsPrelude e s).1 = .ok starred ∧
      (starsPrelude e s).2.progressLog = s.progressLog ++ [(starred.length, 0, 0)] ∧
      (starsPrelude e s).2.embedCalls = s.embedCalls ∧ e.fetchStars = .ok starred) := by
  unfold starsPrelude
  have h1 := updateJobStatus_frame e s "Fetching stars..."
  rcases hu1 : updateJobStatus e s "Fetching stars..." with ⟨ok1, s1⟩
  rw [hu1] at h1
  dsimp only at h1
  cases ok1 with
  | false => exact .inl ⟨rfl, .inl h1.1⟩
  | true =>
    dsimp only
    cases hf : e.fetchStars with
    | error u => exact .inl ⟨rfl, .inl h1.1⟩
    | ok starred =>
      dsimp only
      have h2 := updateJobProgress_log e s1 starred.length 0 0
      rcases hu2 : updateJobProgress e s1 starred.length 0 0 with ⟨ok2, s2⟩
      rw [hu2] at h2
      dsimp only at h2
      cases ok2 with
      | false =>
        refine .inl ⟨rfl, .inl ?_⟩
        show s2.progressLog = s.progressLog
        rw [h2.1, ← h2.2.2.2, h1.1]
        simp
      | true =>
        dsimp only
        have hlog2 : s2.progressLog = s.progressLog ++ [(starred.length, 0, 0)] := by
          rw [h2.1, ← h2.2.2.2, h1.1]
          simp
        have hcalls2 : s2.embedCalls = s.embedCalls := h2.2.1.trans h1.2.1
        have h3 := updateJobStatus_frame e s2 "Creating embeddings..."
        rcases hu3 : updateJobStatus e s2 "Creating embeddings..." with ⟨ok3, s3⟩
        rw [hu3] at h3
        cases ok3 with
        | false => exact .inl ⟨rfl, .inr ⟨starred.length, h3.1.trans hlog2⟩⟩
        | true =>
          exact .inr ⟨starred, rfl, h3.1.trans hlog2, h3.2.1.trans hcalls2, rfl⟩

theorem generateAndStore_log (e : Ext) (s : St) (starred : List Repo)
    (hinv : LogInv starred.length 0 0 s.progressLog) :
    GoodLog starred.length ((generateAndStoreEmbeddings e s starred).2.progressLog) := by
  unfold generateAndStoreEmbeddings
  split
  · exact ⟨hinv.1, hinv.2.1, hinv.2.2.1⟩
  · dsimp only
    split <;> rename_i existingIds s1 hex
    · have hexf := existingRepos_frame e s (starred.map fun r => r.id)
      rw [hex] at hexf
      have hlog : s1.progressLog = s.progressLog := hexf.1
      show GoodLog starred.length s1.progressLog
      rw [hlog]
      exact ⟨hinv.1, hinv.2.1, hinv.2.2.1⟩
    · have hexf := existingRepos_frame e s (starred.map fun r => r.id)
      rw [hex] at hexf
      have hinv1 : LogInv starred.length 0 0 s1.progressLog := by
        have hlog : s1.progressLog = s.progressLog := hexf.1
        rw [hlog]; exact hinv
      have hmid : GoodLog starred.length
          ((if (reposNeedingEmbeddings existingIds starred).isEmpty = true then
              (updateJobProgress e s1 starred.length starred.length 0).2
            else
              (runBatches e s1 starred.length
                (starred.length - (reposNeedingEmbeddings existingIds starred).length)
                (chunksOf 50 (reposNeedingEmbeddings existingIds starred)) 0
                0).2.2).progressLog) := by
        split
        · have h := LogInv_progress_write e s1 starred.length 0
            (hinv1) (Nat.zero_le _) le_rfl (by omega)
          exact ⟨h.1, h.2.1, h.2.2.1⟩
        · have hm : (reposNeedingEmbeddings existingIds starred).length ≤ starred.length :=
            List.length_filter_le _ _
          have hsumlen :
              ((chunksOf 50 (reposNeedingEmbeddings existingIds starred)).map
                List.length).sum = (reposNeedingEmbeddings existingIds starred).length := by
            rw [← List.length_flatten, chunksOf_flatten (by omega)]
          have hr := runBatches_inv e starred.length
            (starred.length - (reposNeedingEmbeddings existingIds starred).length)
            (chunksOf 50 (reposNeedingEmbeddings existingIds starred)) s1 0 0
            (by rw [hsumlen]; omega)
            (LogInv_mono hinv1 (Nat.zero_le _) le_rfl)
          exact ⟨hr.2.2.2.1, hr.2.2.2.2.1, hr.2.2.2.2.2.1⟩
      split <;> rename_i u s3 hh
      all_goals {
        have hf := updateUserStarsHelper_frame e
          (if (reposNeedingEmbeddings existingIds starred).isEmpty = true then
            (updateJobProgress e s1 starred.length starred.length 0).2
          else
            (runBatches e s1 starred.length
              (starred.length - (reposNeedingEmbeddings existingIds starred).length)
              (chunksOf 50 (reposNeedingEmbeddings existingIds starred)) 0 0).2.2)
          (starred.map fun r => r.id)
        rw [hh] at hf
        have hlog : s3.progressLog = _ := hf.1
        show GoodLog starred.length s3.progressLog
        rw [hlog]
        exact hmid }

/-! ## Claim C6: embedding text construction -/

set_option maxHeartbeats 1000000 in
/-- C6: for every item, the text sent to the embedding provider is the
structured concatenation of an owner/name identity line, a description
line with a literal placeholder when the description is absent, a
comma-joined topics line with a literal placeholder when the topic set is
empty, an owner line, and the README content, which is passed unmodified
at up to 2000 Unicode scalar values and otherwise cut to exactly its
first 2000 scalar values with a literal ellipsis appended. -/
theorem embeddingText_matches_spec (repo : Repo) :
    repoToEmbeddingText repo = embeddingTextSpec repo := by
  obtain ⟨i, nm, ow, desc, rd, tps⟩ := repo
  simp only [repoToEmbeddingText, embeddingTextSpec, lineJoin, auxiliaryContentSpec,
    Option.getD, List.isEmpty]
  cases desc <;> cases tps <;> cases rd <;>
    simp only [String.append_assoc] <;>
    first
      | rfl
      | (rename_i readme
         rcases Nat.lt_or_ge 2000 readme.data.length with h | h
         · rw [if_pos h, if_neg (Nat.not_le.mpr h)]
           rfl
         · rw [if_neg (Nat.not_lt.mpr h), if_pos h]
           rfl)

/-! ## Claim C1: progress monotonicity -/

set_option maxRecDepth 8192 in
/-- C1 counterexample: with one fresh repository whose batch succeeds,
followed by a failure of the membership write inside the pipeline, the
job manager error branch writes (total 1, processed 0, failed 1) after
the batch had already written processed 1, so the sequence of processed
values written over the job lifetime is 0, 1, 0 — not monotonic. -/
theorem progress_reset_counterexample :
    procMonoB (processUserStars extResetProgress (mkSt [] [] none)).2.progressLog = false := by
  decide

/-- C1 amended: across every execution path the progress writes keep a
constant total, a non-decreasing failed counter, and processed plus
failed bounded by total; the processed counter is non-decreasing on every
write except possibly the final one, and is fully non-decreasing whenever
the pipeline task returns success. On the error path the final write
resets processed to 0 and failed to total, which is the only permitted
violation. -/
theorem progress_monotonicity_amended (e : Ext) (wE wR : List Nat)
    (us : Option (List Nat × String)) :
    totalConstB (processUserStars e (mkSt wE wR us)).2.progressLog = true ∧
    failMonoB (processUserStars e (mkSt wE wR us)).2.progressLog = true ∧
    boundedSelfB (processUserStars e (mkSt wE wR us)).2.progressLog = true ∧
    procMonoB (processUserStars e (mkSt wE wR us)).2.progressLog.dropLast = true ∧
    ((processUserStars e (mkSt wE wR us)).1 = .ok () →
      procMonoB (processUserStars e (mkSt wE wR us)).2.progressLog = true) := by
  unfold processUserStars
  have hps := starsPrelude_spec e (mkSt wE wR us)
  split
  · rename_i u1 s1 hpre
    rw [hpre] at hps
    dsimp only at hps
    rcases hps with ⟨_, hlog⟩ | ⟨st2, habs, _⟩
    · have hlog0 : s1.progressLog = (mkSt wE wR us).progressLog ∨
          ∃ n, s1.progressLog = (mkSt wE wR us).progressLog ++ [(n, 0, 0)] := hlog
      rcases hlog0 with hl | ⟨n, hl⟩
      · show totalConstB s1.progressLog = true ∧ failMonoB s1.progressLog = true ∧
          boundedSelfB s1.progressLog = true ∧
          procMonoB s1.progressLog.dropLast = true ∧
          (Except.error () = Except.ok () → procMonoB s1.progressLog = true)
        rw [hl]
        exact ⟨rfl, rfl, rfl, rfl, fun h => Except.noConfusion h⟩
      · show totalConstB s1.progressLog = true ∧ failMonoB s1.progressLog = true ∧
          boundedSelfB s1.progressLog = true ∧
          procMonoB s1.progressLog.dropLast = true ∧
          (Except.error () = Except.ok () → procMonoB s1.progressLog = true)
        rw [hl]
        refine ⟨pairwiseB_single _ _, pairwiseB_single _ _, ?_, rfl,
          fun h => Except.noConfusion h⟩
        refine boundedSelfB_of_all ?_
        intro w hw
        simp only [mkSt, List.nil_append, List.mem_singleton] at hw
        subst hw
        show 0 + 0 ≤ n
        omega
    · exact absurd habs (fun h => Except.noConfusion h)
  · rename_i starred s1 hpre
    rw [hpre] at hps
    dsimp only at hps
    rcases hps with ⟨habs, _⟩ | ⟨st2, hok, hlog1, _, _⟩
    · exact absurd habs (fun h => Except.noConfusion h)
    · have hst : starred = st2 := Except.ok.inj hok
      subst hst
      have hinv1 : LogInv starred.length 0 0 s1.progressLog := by
        rw [hlog1]
        show LogInv starred.length 0 0 ([] ++ [(starred.length, 0, 0)])
        rw [List.nil_append]
        exact LogInv_single _
      have hgen := generateAndStore_log e s1 starred hinv1
      split <;> rename_i u2 s2 hg
      · rw [hg] at hgen
        have hGL : GoodLog starred.length s2.progressLog := hgen
        have hpe := pipelineErrorPath_spec e s2 starred.length
        have hallT : ∀ w ∈ s2.progressLog ++
            (if e.dbOk s2.dbCalls then [(starred.length, 0, starred.length)] else []),
            w.1 = starred.length ∧ w.2.1 + w.2.2 ≤ w.1 := by
          intro w hw
          rcases List.mem_append.mp hw with hw | hw
          · have := hGL.2.2 w hw
            exact ⟨this.1, this.1 ▸ this.2⟩
          · split at hw
            · rcases List.mem_singleton.mp hw with rfl
              exact ⟨rfl, by show 0 + starred.length ≤ starred.length; omega⟩
            · simp at hw
        refine ⟨?_, ?_, ?_, ?_, ?_⟩
        · rw [hpe.2.1]
          exact totalConstB_of_all (fun w hw => (hallT w hw).1)
        · rw [hpe.2.1]
          split
          · refine pairwiseB_concat hGL.2.1 ?_
            intro a ha
            have hmem := List.mem_of_mem_getLast? ha
            have hb := hGL.2.2 a hmem
            simp only [decide_eq_true_eq]
            omega
          · rw [List.append_nil]
            exact hGL.2.1
        · rw [hpe.2.1]
          exact boundedSelfB_of_all (fun w hw => (hallT w hw).2)
        · rw [hpe.2.1]
          split
          · rw [List.dropLast_concat]
            exact hGL.1
          · rw [List.append_nil]
            exact pairwiseB_dropLast hGL.1
        · intro h
          exact absurd (hpe.1.symm.trans h) (fun hc => Except.noConfusion hc)
      · rw [hg] at hgen
        have hGL : GoodLog starred.length s2.progressLog := hgen
        have hsf := starsFinish_frame e s2 starred
        refine ⟨?_, ?_, ?_, ?_, fun _ => ?_⟩
        · rw [hsf.1]
          exact totalConstB_of_all (fun w hw => (hGL.2.2 w hw).1)
        · rw [hsf.1]
          exact hGL.2.1
        · rw [hsf.1]
          refine boundedSelfB_of_all ?_
          intro w hw
          have := hGL.2.2 w hw
          exact this.1 ▸ this.2
        · rw [hsf.1]
          exact pairwiseB_dropLast hGL.1
        · rw [hsf.1]
          exact hGL.1

set_option maxRecDepth 8192 in
/-- Concrete instantiation of the amended C1 theorem on a fully
successful run: the total is constant across the writes and, the run
having returned success, the processed counter is non-decreasing over the
whole log. -/
theorem progress_monotonicity_amended_witness :
    totalConstB (processUserStars extAllGood (mkSt [] [] none)).2.progressLog = true ∧
    procMonoB (processUserStars extAllGood (mkSt [] [] none)).2.progressLog = true :=
  ⟨(progress_monotonicity_amended extAllGood [] [] none).1,
   (progress_monotonicity_amended extAllGood [] [] none).2.2.2.2 rfl⟩

/-! ## Claim C5: terminal status on membership-write failure -/

set_option maxRecDepth 8192 in
/-- C5 counterexample: when the job manager final membership overwrite
(the eighth database call of the run) fails after the pipeline succeeded,
the task ends with an error while the job record is left in the
non-terminal progress status with no completion timestamp, so an
execution of the pipeline task can end leaving the job record
non-terminal. -/
theorem job_left_nonterminal_counterexample :
    (processUserStars extLostTerminal (mkSt [] [] none)).1 = .error () ∧
    isTerminalStatus (processUserStars extLostTerminal (mkSt [] [] none)).2.job.status
      = false ∧
    (processUserStars extLostTerminal (mkSt [] [] none)).2.job.completedAt = none := by
  refine ⟨rfl, by decide, rfl⟩

/-- C5 amended: when the embedding pipeline fails — including a failure of
the membership write it performs as its final step — and the two
subsequent job-record writes of the error branch succeed, the job is
marked failed with a completion timestamp and the task returns the error.
However the job manager performs a second membership write after the
pipeline, and as the counterexample shows, a failure of that write (or of
the source fetch or of a job-record write) ends the task with the job
record left in a non-terminal status. -/
theorem pipeline_failure_marks_job_failed (e : Ext) (s0 s1 s2 : St) (starred : List Repo)
    (hpre : starsPrelude e s0 = (.ok starred, s1))
    (hgen : generateAndStoreEmbeddings e s1 starred = (.error (), s2))
    (hdb1 : e.dbOk s2.dbCalls = true)
    (hdb2 : e.dbOk (s2.dbCalls + 1) = true) :
    (processUserStars e s0).1 = .error () ∧
    (processUserStars e s0).2.job.status = "failed" ∧
    (processUserStars e s0).2.job.completedAt.isSome = true := by
  unfold processUserStars
  rw [hpre]
  dsimp only
  rw [hgen]
  dsimp only
  simp only [pipelineErrorPath, updateJobProgress, failJobDb, dbStep, hdb1, hdb2, if_true]
  refine ⟨?_, ?_, ?_⟩ <;> first | rfl | trivial

/-- Witness for C5 amended: concrete run in which the membership write
inside the pipeline (the seventh database call) fails and the error
branch succeeds, leaving the job failed with a completion timestamp. -/
theorem pipeline_failure_marks_job_failed_witness :
    (processUserStars extInnerStarsFail (mkSt [] [] none)).1 = .error () ∧
    (processUserStars extInnerStarsFail (mkSt [] [] none)).2.job.status = "failed" ∧
    (processUserStars extInnerStarsFail (mkSt [] [] none)).2.job.completedAt.isSome
      = true :=
  pipeline_failure_marks_job_failed extInnerStarsFail (mkSt [] [] none)
    ((starsPrelude extInnerStarsFail (mkSt [] [] none)).2)
    ((generateAndStoreEmbeddings extInnerStarsFail
      (starsPrelude extInnerStarsFail (mkSt [] [] none)).2 [repoA]).2)
    [repoA] rfl rfl rfl rfl

/-! ## Claim C10: empty source list -/

/-- C10: when the source fetch returns an empty item list, the pipeline
returns success immediately and the job is driven to completed, while the
stores are untouched: no dedup lookup, no provider call and no membership
write happen (only the two status writes, the initial progress write and
the completion write run, so exactly four database calls), and a
previously stored membership row is left unchanged. -/
theorem empty_source_frame (e : Ext) (wE wR : List Nat) (us : Option (List Nat × String))
    (hfetch : e.fetchStars = .ok [])
    (hdb : ∀ i, e.dbOk i = true) :
    (processUserStars e (mkSt wE wR us)).1 = .ok () ∧
    (processUserStars e (mkSt wE wR us)).2.job.status = "completed" ∧
    (processUserStars e (mkSt wE wR us)).2.job.completedAt.isSome = true ∧
    (processUserStars e (mkSt wE wR us)).2.userStars = us ∧
    (processUserStars e (mkSt wE wR us)).2.reposWithEmbedding = wE ∧
    (processUserStars e (mkSt wE wR us)).2.reposWithoutReadme = wR ∧
    (processUserStars e (mkSt wE wR us)).2.embedCalls = [] ∧
    (processUserStars e (mkSt wE wR us)).2.dbCalls = 4 := by
  simp only [processUserStars, starsPrelude, starsFinish, generateAndStoreEmbeddings,
    updateJobStatus, updateJobProgress, completeJobDb, dbStep, mkSt, hfetch, hdb,
    if_true, List.isEmpty, List.map_nil]
  refine ⟨?_, ?_, ?_, ?_, ?_, ?_, ?_, ?_⟩ <;> first | rfl | trivial

/-- Witness for C10 at the concrete empty-source oracle over a prefilled
store. -/
theorem empty_source_frame_witness :
    (processUserStars extEmptyStars (mkSt [2] [3] (some ([9], "old")))).1 = .ok () ∧
    (processUserStars extEmptyStars (mkSt [2] [3] (some ([9], "old")))).2.job.status
      = "completed" ∧
    (processUserStars extEmptyStars
      (mkSt [2] [3] (some ([9], "old")))).2.job.completedAt.isSome = true ∧
    (processUserStars extEmptyStars (mkSt [2] [3] (some ([9], "old")))).2.userStars
      = some ([9], "old") ∧
    (processUserStars extEmptyStars
      (mkSt [2] [3] (some ([9], "old")))).2.reposWithEmbedding = [2] ∧
    (processUserStars extEmptyStars
      (mkSt [2] [3] (some ([9], "old")))).2.reposWithoutReadme = [3] ∧
    (processUserStars extEmptyStars (mkSt [2] [3] (some ([9], "old")))).2.embedCalls
      = [] ∧
    (processUserStars extEmptyStars (mkSt [2] [3] (some ([9], "old")))).2.dbCalls = 4 :=
  empty_source_frame extEmptyStars [2] [3] (some ([9], "old")) rfl (fun _ => rfl)

/-! ## Claim C2: single job per user -/

/-- C2: starting a job for a user with a live registry entry returns the
already-running error and leaves the state untouched; after the task end
removed the registry entry, a new start succeeds and returns the next
store-assigned job id, which is fresh with respect to all stored jobs. -/
theorem startJob_single_job_per_user (m : ManagerSt) (u : Int) (ok : Bool) :
    (m.activeJobs.any (fun p => p.1 == u) = true → startJob m u ok = (.alreadyRunning, m)) ∧
    (startJob (taskFinished m u) u true).1 = .started m.nextJobId ∧
    ((∀ j ∈ m.jobs, j.id < m.nextJobId) → m.nextJobId ∉ m.jobs.map (fun j => j.id)) := by
  refine ⟨?_, ?_, ?_⟩
  · intro h
    unfold startJob
    rw [if_pos h]
  · have hno : ((taskFinished m u).activeJobs.any (fun p => p.1 == u)) = false := by
      unfold taskFinished
      rw [List.any_eq_false]
      intro p hp
      rw [List.mem_filter] at hp
      have h2 := hp.2
      rw [bne_iff_ne] at h2
      simpa using h2
    unfold startJob
    rw [if_neg (by rw [hno]; exact Bool.false_ne_true), if_pos rfl]
    rfl
  · intro hlt hmem
    rcases List.mem_map.mp hmem with ⟨j, hj, hid⟩
    exact absurd (hid ▸ hlt j hj) (lt_irrefl _)

/-- Witness for C2 at a concrete orchestrator state. -/
theorem startJob_single_job_per_user_witness :
    startJob exMgr 5 true = (.alreadyRunning, exMgr) ∧
    (startJob (taskFinished exMgr 5) 5 true).1 = .started 1 ∧
    (1 : Nat) ∉ exMgr.jobs.map (fun j => j.id) :=
  ⟨(startJob_single_job_per_user exMgr 5 true).1 (by decide),
   (startJob_single_job_per_user exMgr 5 true).2.1,
   (startJob_single_job_per_user exMgr 5 true).2.2 (by decide)⟩

/-! ## Claim C3: crash recovery at startup -/

/-- C3: after initialization runs, every job row that was in a
non-terminal status is replaced by its failed version, whose status is
failed and whose completion timestamp is set, and rows already terminal
are unchanged. The database helpers scanned and bulk-updated here are
modelled from the spec, since only their caller is among the sources. -/
theorem initializeJobs_crash_recovery (jobs : List JobRow) (now : Nat)
    (hids : (jobs.map (fun j => j.id)).Nodup) :
    initializeJobs now jobs =
      jobs.map (fun j => if isTerminalStatus j.status then j else failJobRow now j) ∧
    (∀ j : JobRow, (failJobRow now j).status = "failed" ∧
      (failJobRow now j).completedAt = some now) := by
  refine ⟨?_, fun j => ⟨rfl, rfl⟩⟩
  unfold initializeJobs failJobsById
  refine List.map_congr_left ?_
  intro j hj
  by_cases hterm : isTerminalStatus j.status
  · rw [if_pos hterm]
    have hcon : (((getIncompleteJobs jobs).map (fun j => j.id)).contains j.id) = false := by
      rw [List.contains_eq_any_beq, List.any_eq_false]
      intro x hx
      rcases List.mem_map.mp hx with ⟨j2, hj2, rfl⟩
      simp only [getIncompleteJobs, List.mem_filter, Bool.not_eq_true'] at hj2
      have hne : j2 ≠ j := by
        intro hEq
        rw [hEq, hterm] at hj2
        exact Bool.false_ne_true hj2.2.symm
      have hneid : j2.id ≠ j.id := by
        intro hEq
        exact hne (List.inj_on_of_nodup_map hids hj2.1 hj hEq)
      simp only [beq_iff_eq]
      exact fun hEq => hneid hEq.symm
    rw [hcon]
    rfl
  · rw [if_neg hterm]
    have hmem : j ∈ getIncompleteJobs jobs := by
      simp only [getIncompleteJobs, List.mem_filter, Bool.not_eq_true']
      exact ⟨hj, Bool.eq_false_iff.mpr hterm⟩
    have hcon : (((getIncompleteJobs jobs).map (fun j => j.id)).contains j.id) = true := by
      rw [List.contains_eq_any_beq, List.any_eq_true]
      exact ⟨j.id, List.mem_map.mpr ⟨j, hmem, rfl⟩, by simp⟩
    rw [hcon]
    rfl

/-- Witness for C3 at a concrete job table with one completed, one
mid-progress and one pending row. -/
theorem initializeJobs_crash_recovery_witness :
    initializeJobs 9 exJobs =
      exJobs.map (fun j => if isTerminalStatus j.status then j else failJobRow 9 j) :=
  (initializeJobs_crash_recovery exJobs 9 (by decide)).1

/-! ## Claim C8: batching and provider count mismatch -/

theorem CallsBounded_of_eq {s1 s : St} (he : s1.embedCalls = s.embedCalls)
    (h : CallsBounded s) : CallsBounded s1 := fun c hc => h c (he ▸ hc)

theorem getEmbeddingsLoop_calls (e : Ext) :
    ∀ (batches : List (List String)) (s : St) (acc : List Unit),
    (∀ b ∈ batches, b.length ≤ 4) → CallsBounded s →
    CallsBounded (getEmbeddingsLoop e s batches acc).2 := by
  intro batches
  induction batches with
  | nil => intro s acc _ h; exact h
  | cons b rest ih =>
    intro s acc hb h
    unfold getEmbeddingsLoop
    have hbf := getEmbeddingsBatch_frame e s b
    rcases hanal : getEmbeddingsBatch e s b with ⟨res, s1⟩
    rw [hanal] at hbf
    have h1 : CallsBounded s1 := by
      intro c hc
      have : c ∈ s.embedCalls ++ [b] := hbf.2.1 ▸ hc
      rcases List.mem_append.mp this with hcc | hcc
      · exact h c hcc
      · rcases List.mem_singleton.mp hcc with rfl
        exact hb c (List.mem_cons_self c rest)
    cases res with
    | ok embs =>
      dsimp only
      exact ih s1 (acc ++ embs) (fun x hx => hb x (List.mem_cons_of_mem b hx)) h1
    | error u => exact h1

theorem getEmbeddings_calls (e : Ext) (s : St) (ts : List String)
    (h : CallsBounded s) : CallsBounded (getEmbeddings e s ts).2 := by
  unfold getEmbeddings
  split
  · exact h
  · split
    · exact h
    · exact getEmbeddingsLoop_calls e (chunksOf 4 ts) s []
        (fun b hb => chunksOf_length_le (by omega) b hb) h

theorem processRepositoryBatch_calls (e : Ext) (s : St) (repos : List Repo)
    (h : CallsBounded s) : CallsBounded (processRepositoryBatch e s repos).2 := by
  unfold processRepositoryBatch
  dsimp only
  rcases hc : collectProcessed e s (repos.map (fetchReadme e)) with ⟨pr, s1⟩
  have hcf := collectProcessed_frame e (repos.map (fetchReadme e)) s
  rw [hc] at hcf
  dsimp only
  have h1 : CallsBounded s1 := CallsBounded_of_eq hcf.2.1 h
  have hg := getEmbeddings_calls e s1 (pr.map repoToEmbeddingText) h1
  rcases hge : getEmbeddings e s1 (pr.map repoToEmbeddingText) with ⟨res, s2⟩
  rw [hge] at hg
  cases res with
  | error u => exact hg
  | ok embs =>
    have hu := upsertAll_frame e pr embs s2
    exact CallsBounded_of_eq hu.2.1 hg

theorem runBatches_calls (e : Ext) (T already : Nat) :
    ∀ (batches : List (List Repo)) (s : St) (pc fc : Nat), CallsBounded s →
    CallsBounded (runBatches e s T already batches pc fc).2.2 := by
  intro batches
  induction batches with
  | nil => intro s pc fc h; exact h
  | cons batch rest ih =>
    intro s pc fc h
    rcases hb : processRepositoryBatch e s batch with ⟨res, s1⟩
    have hcb : CallsBounded s1 := by
      have := processRepositoryBatch_calls e s batch h
      rw [hb] at this
      exact this
    cases res with
    | ok k =>
      rw [runBatches_cons_ok T already rest pc fc hb]
      exact ih _ _ _ (CallsBounded_of_eq
        (updateJobProgress_log e s1 T (already + (pc + k)) fc).2.1 hcb)
    | error u =>
      cases u
      rw [runBatches_cons_err T already rest pc fc hb]
      exact ih _ _ _ (CallsBounded_of_eq
        (updateJobProgress_log e s1 T (already + pc) (fc + batch.length)).2.1 hcb)

theorem generateAndStore_calls (e : Ext) (s : St) (starred : List Repo)
    (h : CallsBounded s) : CallsBounded (generateAndStoreEmbeddings e s starred).2 := by
  unfold generateAndStoreEmbeddings
  split
  · exact h
  · dsimp only
    split <;> rename_i X s1 hex
    · have hexf := existingRepos_frame e s (starred.map fun r => r.id)
      rw [hex] at hexf
      exact CallsBounded_of_eq hexf.2.1 h
    · have hexf := existingRepos_frame e s (starred.map fun r => r.id)
      rw [hex] at hexf
      have h1 : CallsBounded s1 := CallsBounded_of_eq hexf.2.1 h
      have hmid : CallsBounded
          (if (reposNeedingEmbeddings X starred).isEmpty = true then
            (updateJobProgress e s1 starred.length starred.length 0).2
          else
            (runBatches e s1 starred.length
              (starred.length - (reposNeedingEmbeddings X starred).length)
              (chunksOf 50 (reposNeedingEmbeddings X starred)) 0 0).2.2) := by
        split
        · exact CallsBounded_of_eq
            (updateJobProgress_log e s1 starred.length starred.length 0).2.1 h1
        · exact runBatches_calls e starred.length
            (starred.length - (reposNeedingEmbeddings X starred).length)
            (chunksOf 50 (reposNeedingEmbeddings X starred)) s1 0 0 h1
      split <;> rename_i u s3 hh
      all_goals {
        have hf := updateUserStarsHelper_frame e
          (if (reposNeedingEmbeddings X starred).isEmpty = true then
            (updateJobProgress e s1 starred.length starred.length 0).2
          else
            (runBatches e s1 starred.length
              (starred.length - (reposNeedingEmbeddings X starred).length)
              (chunksOf 50 (reposNeedingEmbeddings X starred)) 0 0).2.2)
          (starred.map fun r => r.id)
        rw [hh] at hf
        exact CallsBounded_of_eq hf.2.1 hmid }

theorem starsPrelude_calls (e : Ext) (s : St) :
    (starsPrelude e s).2.embedCalls = s.embedCalls := by
  unfold starsPrelude
  have h1 := updateJobStatus_frame e s "Fetching stars..."
  rcases hu1 : updateJobStatus e s "Fetching stars..." with ⟨ok1, s1⟩
  rw [hu1] at h1
  cases ok1 with
  | false => exact h1.2.1
  | true =>
    dsimp only
    cases hf : e.fetchStars with
    | error u => exact h1.2.1
    | ok starred =>
      dsimp only
      have h2 := updateJobProgress_log e s1 starred.length 0 0
      rcases hu2 : updateJobProgress e s1 starred.length 0 0 with ⟨ok2, s2⟩
      rw [hu2] at h2
      cases ok2 with
      | false => exact h2.2.1.trans h1.2.1
      | true =>
        dsimp only
        have h3 := updateJobStatus_frame e s2 "Creating embeddings..."
        rcases hu3 : updateJobStatus e s2 "Creating embeddings..." with ⟨ok3, s3⟩
        rw [hu3] at h3
        cases ok3 <;> exact h3.2.1.trans (h2.2.1.trans h1.2.1)

theorem processUserStars_calls (e : Ext) (s : St) (h : CallsBounded s) :
    CallsBounded (processUserStars e s).2 := by
  unfold processUserStars
  split
  · rename_i u1 s1 hpre
    have hc := starsPrelude_calls e s
    rw [hpre] at hc
    exact CallsBounded_of_eq hc h
  · rename_i starred s1 hpre
    have hc1 : s1.embedCalls = s.embedCalls := by
      have := starsPrelude_calls e s
      rw [hpre] at this
      exact this
    have hb1 : CallsBounded s1 := CallsBounded_of_eq hc1 h
    have hcg := generateAndStore_calls e s1 starred hb1
    split <;> rename_i u2 s2 hg
    · rw [hg] at hcg
      have hpe := pipelineErrorPath_spec e s2 starred.length
      exact CallsBounded_of_eq hpe.2.2 hcg
    · rw [hg] at hcg
      have hsf := starsFinish_frame e s2 starred
      exact CallsBounded_of_eq hsf.2 hcg

/-- C8: items needing embeddings are partitioned into outer batches of at
most 50 whose concatenation is the whole list; every embedding-provider
request made anywhere in a run carries at most 4 texts; a provider
response whose embedding count differs from the requested text count
makes the provider call an error; and a failed outer batch adds the whole
batch size to the failed counter while the loop continues with the
remaining batches instead of aborting. -/
theorem batching_and_mismatch_isolation :
    (∀ (l : List Repo), (∀ b ∈ chunksOf 50 l, b.length ≤ 50) ∧
      (chunksOf 50 l).flatten = l) ∧
    (∀ (e : Ext) (wE wR : List Nat) (us : Option (List Nat × String)),
      ∀ c ∈ (processUserStars e (mkSt wE wR us)).2.embedCalls, c.length ≤ 4) ∧
    (∀ (e : Ext) (s : St) (ts : List String) (n : Nat),
      e.provider s.provCalls ts = some n → n ≠ ts.length →
      (getEmbeddingsBatch e s ts).1 = .error ()) ∧
    (∀ (e : Ext) (s s1 : St) (T already : Nat) (batch : List Repo)
      (rest : List (List Repo)) (pc fc : Nat),
      processRepositoryBatch e s batch = (.error (), s1) →
      runBatches e s T already (batch :: rest) pc fc =
        runBatches e ((updateJobProgress e s1 T (already + pc) (fc + batch.length)).2)
          T already rest pc (fc + batch.length)) := by
  refine ⟨?_, ?_, ?_, ?_⟩
  · intro l
    exact ⟨fun b hb => chunksOf_length_le (by omega) b hb, chunksOf_flatten (by omega)⟩
  · intro e wE wR us
    exact processUserStars_calls e (mkSt wE wR us)
      (fun c hc => absurd hc (List.not_mem_nil c))
  · intro e s ts n hprov hneq
    unfold getEmbeddingsBatch
    dsimp only
    rw [hprov]
    dsimp only
    rw [if_neg hneq]
  · intro e s s1 T already batch rest pc fc h
    exact runBatches_cons_err T already rest pc fc h

set_option maxRecDepth 8192 in
/-- Witness for C8 at concrete inputs: the single outer batch of the one
fresh repository, a provider request of one text, a mismatching provider
answer of zero embeddings, and the batch-failure continuation of the
loop. -/
theorem batching_and_mismatch_isolation_witness :
    (chunksOf 50 [repoA]).flatten = [repoA] ∧
    ((processUserStars extAllGood (mkSt [] [] none)).2.embedCalls.headI).length ≤ 4 ∧
    (getEmbeddingsBatch extMismatch (mkSt [] [] none) ["a", "b"]).1 = .error () ∧
    runBatches extMismatch (mkSt [] [] none) 1 0 [[repoA]] 0 0 =
      runBatches extMismatch
        ((updateJobProgress extMismatch
          (processRepositoryBatch extMismatch (mkSt [] [] none) [repoA]).2 1 (0 + 0)
          (0 + 1)).2) 1 0 [] 0 (0 + 1) :=
  ⟨(batching_and_mismatch_isolation.1 [repoA]).2,
   batching_and_mismatch_isolation.2.1 extAllGood [] [] none _ (by decide),
   batching_and_mismatch_isolation.2.2.1 extMismatch (mkSt [] [] none) ["a", "b"] 0
     rfl (by decide),
   batching_and_mismatch_isolation.2.2.2 extMismatch (mkSt [] [] none)
     (processRepositoryBatch extMismatch (mkSt [] [] none) [repoA]).2 1 0 [repoA] [] 0 0
     rfl⟩

/-! ## Claim C4: idempotent enrichment -/

theorem natContains_iff {l : List Nat} {i : Nat} : l.contains i = true ↔ i ∈ l :=
  List.elem_iff

theorem StoreContains_mono {s s2 : St} {i : Nat}
    (hE : ∃ t, s2.reposWithEmbedding = s.reposWithEmbedding ++ t)
    (hR : ∃ t, s2.reposWithoutReadme = s.reposWithoutReadme ++ t)
    (h : StoreContains s i) : StoreContains s2 i := by
  rcases hE with ⟨t1, h1⟩
  rcases hR with ⟨t2, h2⟩
  rcases h with h | h
  · left
    rw [h1, natContains_iff]
    exact List.mem_append_left _ (natContains_iff.mp h)
  · right
    rw [h2, natContains_iff]
    exact List.mem_append_left _ (natContains_iff.mp h)

theorem fetchReadme_id (e : Ext) (r : Repo) : (fetchReadme e r).id = r.id := by
  unfold fetchReadme
  cases e.readme r.id <;> rfl

theorem insertRepoWithoutReadme_grows (e : Ext) (s : St) (id : Nat) :
    (∃ t, (insertRepoWithoutReadme e s id).reposWithoutReadme =
      s.reposWithoutReadme ++ t) ∧
    (insertRepoWithoutReadme e s id).reposWithEmbedding = s.reposWithEmbedding := by
  unfold insertRepoWithoutReadme dbStep
  dsimp only
  split
  · exact ⟨⟨[id], rfl⟩, rfl⟩
  · exact ⟨⟨[], (List.append_nil _).symm⟩, rfl⟩

theorem upsertRepository_grows (e : Ext) (s : St) (id : Nat) :
    (∃ t, (upsertRepository e s id).reposWithEmbedding =
      s.reposWithEmbedding ++ t) ∧
    (upsertRepository e s id).reposWithoutReadme = s.reposWithoutReadme := by
  unfold upsertRepository dbStep
  dsimp only
  split
  · exact ⟨⟨[id], rfl⟩, rfl⟩
  · exact ⟨⟨[], (List.append_nil _).symm⟩, rfl⟩

theorem collectProcessed_grows (e : Ext) :
    ∀ (repos : List Repo) (s : St),
    (∃ t, (collectProcessed e s repos).2.reposWithoutReadme =
      s.reposWithoutReadme ++ t) ∧
    (collectProcessed e s repos).2.reposWithEmbedding = s.reposWithEmbedding := by
  intro repos
  induction repos with
  | nil => intro s; exact ⟨⟨[], (List.append_nil _).symm⟩, rfl⟩
  | cons r rest ih =>
    intro s
    unfold collectProcessed
    cases hr : r.readme_content with
    | some c =>
      dsimp only
      rcases h2 : collectProcessed e s rest with ⟨tl, s1⟩
      have hi := ih s
      rw [h2] at hi
      exact hi
    | none =>
      dsimp only
      have hins := insertRepoWithoutReadme_grows e s r.id
      have hi := ih (insertRepoWithoutReadme e s r.id)
      rcases hi.1 with ⟨t2, ht2⟩
      rcases hins.1 with ⟨t1, ht1⟩
      refine ⟨⟨t1 ++ t2, ?_⟩, hi.2.trans hins.2⟩
      rw [ht2, ht1, List.append_assoc]

theorem upsertAll_grows (e : Ext) :
    ∀ (rs : List Repo) (embs : List Unit) (s : St),
    (∃ t, (upsertAll e s rs embs).reposWithEmbedding =
      s.reposWithEmbedding ++ t) ∧
    (upsertAll e s rs embs).reposWithoutReadme = s.reposWithoutReadme := by
  intro rs
  induction rs with
  | nil => intro embs s; cases embs <;> exact ⟨⟨[], (List.append_nil _).symm⟩, rfl⟩
  | cons r rt ih =>
    intro embs s
    cases embs with
    | nil => exact ⟨⟨[], (List.append_nil _).symm⟩, rfl⟩
    | cons emb et =>
      unfold upsertAll
      have h1 := upsertRepository_grows e s r.id
      have h2 := ih et (upsertRepository e s r.id)
      rcases h1.1 with ⟨t1, ht1⟩
      rcases h2.1 with ⟨t2, ht2⟩
      refine ⟨⟨t1 ++ t2, ?_⟩, h2.2.trans h1.2⟩
      rw [ht2, ht1, List.append_assoc]

theorem processRepositoryBatch_grows (e : Ext) (s : St) (repos : List Repo) :
    (∃ t, (processRepositoryBatch e s repos).2.reposWithEmbedding =
      s.reposWithEmbedding ++ t) ∧
    (∃ t, (processRepositoryBatch e s repos).2.reposWithoutReadme =
      s.reposWithoutReadme ++ t) := by
  unfold processRepositoryBatch
  dsimp only
  rcases hc : collectProcessed e s (repos.map (fetchReadme e)) with ⟨pr, s1⟩
  have hcg := collectProcessed_grows e (repos.map (fetchReadme e)) s
  rw [hc] at hcg
  dsimp only
  have hg := getEmbeddings_log e s1 (pr.map repoToEmbeddingText)
  rcases hge : getEmbeddings e s1 (pr.map repoToEmbeddingText) with ⟨res, s2⟩
  rw [hge] at hg
  cases res with
  | error u =>
    rcases hcg.1 with ⟨t2, ht2⟩
    exact ⟨⟨[], by rw [hg.2.2.2.1, hcg.2, List.append_nil]⟩,
      ⟨t2, by rw [hg.2.2.2.2.1, ht2]⟩⟩
  | ok embs =>
    have hu := upsertAll_grows e pr embs s2
    rcases hu.1 with ⟨t1, ht1⟩
    rcases hcg.1 with ⟨t2, ht2⟩
    constructor
    · exact ⟨t1, by rw [ht1, hg.2.2.2.1, hcg.2]⟩
    · exact ⟨t2, by rw [hu.2, hg.2.2.2.2.1, ht2]⟩

theorem updateJobProgress_store (e : Ext) (s : St) (t p f : Nat) :
    (updateJobProgress e s t p f).2.reposWithEmbedding = s.reposWithEmbedding ∧
    (updateJobProgress e s t p f).2.reposWithoutReadme = s.reposWithoutReadme := by
  unfold updateJobProgress dbStep
  dsimp only
  split <;> exact ⟨rfl, rfl⟩

theorem updateUserStarsHelper_store (e : Ext) (s : St) (ids : List Nat) :
    (updateUserStarsHelper e s ids).2.reposWithEmbedding = s.reposWithEmbedding ∧
    (updateUserStarsHelper e s ids).2.reposWithoutReadme = s.reposWithoutReadme := by
  unfold updateUserStarsHelper updateUserStarsDb dbStep
  cases e.getUser with
  | none => exact ⟨rfl, rfl⟩
  | some un =>
    dsimp only
    split <;> exact ⟨rfl, rfl⟩

theorem runBatches_grows (e : Ext) (T already : Nat) :
    ∀ (batches : List (List Repo)) (s : St) (pc fc : Nat),
    (∃ t, (runBatches e s T already batches pc fc).2.2.reposWithEmbedding =
      s.reposWithEmbedding ++ t) ∧
    (∃ t, (runBatches e s T already batches pc fc).2.2.reposWithoutReadme =
      s.reposWithoutReadme ++ t) := by
  intro batches
  induction batches with
  | nil =>
    intro s pc fc
    exact ⟨⟨[], (List.append_nil _).symm⟩, ⟨[], (List.append_nil _).symm⟩⟩
  | cons batch rest ih =>
    intro s pc fc
    rcases hb : processRepositoryBatch e s batch with ⟨res, s1⟩
    have hbg := processRepositoryBatch_grows e s batch
    rw [hb] at hbg
    rcases hbg.1 with ⟨t1, ht1⟩
    rcases hbg.2 with ⟨t2, ht2⟩
    cases res with
    | ok k =>
      rw [runBatches_cons_ok T already rest pc fc hb]
      have hst := updateJobProgress_store e s1 T (already + (pc + k)) fc
      have hr := ih ((updateJobProgress e s1 T (already + (pc + k)) fc).2) (pc + k) fc
      rcases hr.1 with ⟨t3, ht3⟩
      rcases hr.2 with ⟨t4, ht4⟩
      exact ⟨⟨t1 ++ t3, by rw [ht3, hst.1, ht1, List.append_assoc]⟩,
        ⟨t2 ++ t4, by rw [ht4, hst.2, ht2, List.append_assoc]⟩⟩
    | error u =>
      cases u
      rw [runBatches_cons_err T already rest pc fc hb]
      have hst := updateJobProgress_store e s1 T (already + pc) (fc + batch.length)
      have hr := ih ((updateJobProgress e s1 T (already + pc) (fc + batch.length)).2) pc
        (fc + batch.length)
      rcases hr.1 with ⟨t3, ht3⟩
      rcases hr.2 with ⟨t4, ht4⟩
      exact ⟨⟨t1 ++ t3, by rw [ht3, hst.1, ht1, List.append_assoc]⟩,
        ⟨t2 ++ t4, by rw [ht4, hst.2, ht2, List.append_assoc]⟩⟩

theorem repoToEmbeddingText_ne_empty (r : Repo) :
    (repoToEmbeddingText r).data.isEmpty = false := by
  have hlen : 0 < (repoToEmbeddingText r).data.length := by
    unfold repoToEmbeddingText
    dsimp only
    simp only [String.data_append, List.length_append, List.length_cons, List.length_nil]
    omega
  cases h : (repoToEmbeddingText r).data with
  | nil => rw [h] at hlen; simp at hlen
  | cons a t => rfl

theorem getEmbeddingsBatch_good {e : Ext}
    (hprov : ∀ i ts, e.provider i ts = some ts.length) (s : St) (ts : List String) :
    (getEmbeddingsBatch e s ts).1 = .ok (List.replicate ts.length ()) := by
  unfold getEmbeddingsBatch
  dsimp only
  rw [hprov]
  dsimp only
  rw [if_pos rfl]

theorem getEmbeddingsLoop_ok {e : Ext}
    (hprov : ∀ i ts, e.provider i ts = some ts.length) :
    ∀ (batches : List (List String)) (s : St) (acc : List Unit),
    ∃ embs, (getEmbeddingsLoop e s batches acc).1 = .ok embs ∧
      embs.length = acc.length + (batches.map List.length).sum := by
  intro batches
  induction batches with
  | nil => intro s acc; exact ⟨acc, rfl, by simp⟩
  | cons b rest ih =>
    intro s acc
    unfold getEmbeddingsLoop
    have hgood := getEmbeddingsBatch_good hprov s b
    rcases hb : getEmbeddingsBatch e s b with ⟨res, s1⟩
    rw [hb] at hgood
    dsimp only at hgood
    subst hgood
    dsimp only
    rcases ih s1 (acc ++ List.replicate b.length ()) with ⟨embs, hok, hlen⟩
    refine ⟨embs, hok, ?_⟩
    rw [hlen]
    simp only [List.length_append, List.length_replicate, List.map_cons, List.sum_cons]
    omega

theorem getEmbeddings_ok {e : Ext}
    (hprov : ∀ i ts, e.provider i ts = some ts.length) (s : St) (ts : List String)
    (hne : ∀ t ∈ ts, t.data.isEmpty = false) :
    ∃ embs, (getEmbeddings e s ts).1 = .ok embs ∧ embs.length = ts.length := by
  unfold getEmbeddings
  split
  · rename_i hempty
    refine ⟨[], rfl, ?_⟩
    rw [List.isEmpty_iff] at hempty
    rw [hempty]
    rfl
  · split
    · rename_i hval
      rw [List.any_eq_true] at hval
      rcases hval with ⟨t, ht, hemp⟩
      rw [hne t ht] at hemp
      exact absurd hemp (by simp)
    · rcases getEmbeddingsLoop_ok hprov (chunksOf 4 ts) s [] with ⟨embs, hok, hlen⟩
      refine ⟨embs, hok, ?_⟩
      rw [hlen]
      simp only [List.length_nil, Nat.zero_add]
      rw [← List.length_flatten, chunksOf_flatten (by omega)]

theorem insertRepoWithoutReadme_hdb {e : Ext} (s : St) (id : Nat)
    (h : e.dbOk s.dbCalls = true) :
    (insertRepoWithoutReadme e s id).reposWithoutReadme =
      s.reposWithoutReadme ++ [id] ∧
    (insertRepoWithoutReadme e s id).reposWithEmbedding = s.reposWithEmbedding ∧
    (insertRepoWithoutReadme e s id).dbCalls = s.dbCalls + 1 := by
  unfold insertRepoWithoutReadme dbStep
  dsimp only
  rw [if_pos h]
  exact ⟨rfl, rfl, rfl⟩

theorem collectProcessed_split {e : Ext} (hdb : ∀ i, e.dbOk i = true) :
    ∀ (repos : List Repo) (s : St),
    (collectProcessed e s repos).1 =
      repos.filter (fun r => r.readme_content.isSome) ∧
    (collectProcessed e s repos).2.reposWithoutReadme = s.reposWithoutReadme ++
      (repos.filter (fun r => r.readme_content.isNone)).map (fun r => r.id) ∧
    (collectProcessed e s repos).2.reposWithEmbedding = s.reposWithEmbedding := by
  intro repos
  induction repos with
  | nil => intro s; exact ⟨rfl, (List.append_nil _).symm, rfl⟩
  | cons r rest ih =>
    intro s
    unfold collectProcessed
    cases hr : r.readme_content with
    | some c =>
      dsimp only
      rcases h2 : collectProcessed e s rest with ⟨tl, s1⟩
      have hi := ih s
      rw [h2] at hi
      dsimp only at hi ⊢
      refine ⟨?_, ?_, hi.2.2⟩
      · rw [List.filter_cons_of_pos (by simp [hr])]
        rw [hi.1]
      · rw [List.filter_cons_of_neg (by simp [hr])]
        exact hi.2.1
    | none =>
      dsimp only
      have hins := insertRepoWithoutReadme_hdb s r.id (hdb s.dbCalls)
      have hi := ih (insertRepoWithoutReadme e s r.id)
      refine ⟨?_, ?_, ?_⟩
      · rw [List.filter_cons_of_neg (by simp [hr])]
        exact hi.1
      · rw [List.filter_cons_of_pos (by simp [hr])]
        rw [hi.2.1, hins.1]
        simp
      · exact hi.2.2.trans hins.2.1

theorem upsertRepository_hdb {e : Ext} (s : St) (id : Nat)
    (h : e.dbOk s.dbCalls = true) :
    (upsertRepository e s id).reposWithEmbedding = s.reposWithEmbedding ++ [id] ∧
    (upsertRepository e s id).reposWithoutReadme = s.reposWithoutReadme ∧
    (upsertRepository e s id).dbCalls = s.dbCalls + 1 := by
  unfold upsertRepository dbStep
  dsimp only
  rw [if_pos h]
  exact ⟨rfl, rfl, rfl⟩

theorem upsertAll_exact {e : Ext} (hdb : ∀ i, e.dbOk i = true) :
    ∀ (rs : List Repo) (embs : List Unit) (s : St), rs.length ≤ embs.length →
    (upsertAll e s rs embs).reposWithEmbedding =
      s.reposWithEmbedding ++ rs.map (fun r => r.id) ∧
    (upsertAll e s rs embs).reposWithoutReadme = s.reposWithoutReadme := by
  intro rs
  induction rs with
  | nil => intro embs s _; cases embs <;> exact ⟨(List.append_nil _).symm, rfl⟩
  | cons r rt ih =>
    intro embs s hlen
    cases embs with
    | nil => simp at hlen
    | cons emb et =>
      unfold upsertAll
      have hup := upsertRepository_hdb s r.id (hdb s.dbCalls)
      have hi := ih et (upsertRepository e s r.id) (by simpa using Nat.le_of_succ_le_succ hlen)
      refine ⟨?_, hi.2.trans hup.2.1⟩
      rw [hi.1, hup.1]
      simp

theorem processRepositoryBatch_good {e : Ext} (hdb : ∀ i, e.dbOk i = true)
    (hprov : ∀ i ts, e.provider i ts = some ts.length) (s : St) (repos : List Repo) :
    (processRepositoryBatch e s repos).1 = .ok
      ((repos.map (fetchReadme e)).filter (fun r => r.readme_content.isSome)).length ∧
    (processRepositoryBatch e s repos).2.reposWithEmbedding = s.reposWithEmbedding ++
      ((repos.map (fetchReadme e)).filter
        (fun r => r.readme_content.isSome)).map (fun r => r.id) ∧
    (processRepositoryBatch e s repos).2.reposWithoutReadme = s.reposWithoutReadme ++
      ((repos.map (fetchReadme e)).filter
        (fun r => r.readme_content.isNone)).map (fun r => r.id) := by
  unfold processRepositoryBatch
  dsimp only
  rcases hc : collectProcessed e s (repos.map (fetchReadme e)) with ⟨pr, s1⟩
  have hcs := collectProcessed_split hdb (repos.map (fetchReadme e)) s
  rw [hc] at hcs
  dsimp only at hcs
  have hne : ∀ t ∈ pr.map repoToEmbeddingText, t.data.isEmpty = false := by
    intro t ht
    rcases List.mem_map.mp ht with ⟨r, _, rfl⟩
    exact repoToEmbeddingText_ne_empty r
  rcases getEmbeddings_ok hprov s1 (pr.map repoToEmbeddingText) hne with ⟨embs, hok, hlen⟩
  have hg := getEmbeddings_log e s1 (pr.map repoToEmbeddingText)
  rcases hge : getEmbeddings e s1 (pr.map repoToEmbeddingText) with ⟨res, s2⟩
  rw [hge] at hok hg
  dsimp only at hok
  subst hok
  dsimp only
  have hup := upsertAll_exact hdb pr embs s2
    (by rw [hlen]; simp)
  refine ⟨by rw [hcs.1], ?_, ?_⟩
  · rw [hup.1, hg.2.2.2.1, hcs.2.2, hcs.1]
  · rw [hup.2, hg.2.2.2.2.1, hcs.2.1]

theorem existingRepos_hdb {e : Ext} (hdb : ∀ i, e.dbOk i = true) (s : St)
    (ids : List Nat) :
    (existingRepos e s ids).1 = .ok (ids.filter (fun i =>
      s.reposWithEmbedding.contains i || s.reposWithoutReadme.contains i)) := by
  unfold existingRepos dbStep
  dsimp only
  rw [if_pos (hdb s.dbCalls)]

theorem runBatches_covers {e : Ext} (hdb : ∀ i, e.dbOk i = true)
    (hprov : ∀ i ts, e.provider i ts = some ts.length) (T already : Nat) :
    ∀ (batches : List (List Repo)) (s : St) (pc fc : Nat) (r : Repo)
      (b : List Repo), b ∈ batches → r ∈ b →
    StoreContains (runBatches e s T already batches pc fc).2.2 r.id := by
  intro batches
  induction batches with
  | nil => intro s pc fc r b hb _; exact absurd hb (List.not_mem_nil b)
  | cons batch rest ih =>
    intro s pc fc r b hbmem hr
    have hgood := processRepositoryBatch_good hdb hprov s batch
    rcases hb : processRepositoryBatch e s batch with ⟨res, s1⟩
    rw [hb] at hgood
    dsimp only at hgood
    have hres := hgood.1
    subst hres
    rw [runBatches_cons_ok T already rest pc fc hb]
    rcases List.mem_cons.mp hbmem with rfl | hbm
    · have hsc : StoreContains s1 r.id := by
        have hmem : fetchReadme e r ∈ b.map (fetchReadme e) :=
          List.mem_map_of_mem (fetchReadme e) hr
        cases hso : (fetchReadme e r).readme_content with
        | none =>
          right
          rw [hgood.2.2, natContains_iff]
          refine List.mem_append_right _ ?_
          exact List.mem_map.mpr ⟨fetchReadme e r,
            List.mem_filter.mpr ⟨hmem, by simp [hso]⟩, fetchReadme_id e r⟩
        | some c =>
          left
          rw [hgood.2.1, natContains_iff]
          refine List.mem_append_right _ ?_
          exact List.mem_map.mpr ⟨fetchReadme e r,
            List.mem_filter.mpr ⟨hmem, by simp [hso]⟩, fetchReadme_id e r⟩
      have hst := updateJobProgress_store e s1 T
        (already + (pc + ((b.map (fetchReadme e)).filter
          (fun r => r.readme_content.isSome)).length)) fc
      have hrg := runBatches_grows e T already rest
        ((updateJobProgress e s1 T
          (already + (pc + ((b.map (fetchReadme e)).filter
            (fun r => r.readme_content.isSome)).length)) fc).2)
        (pc + ((b.map (fetchReadme e)).filter
          (fun r => r.readme_content.isSome)).length) fc
      rcases hrg.1 with ⟨t1, ht1⟩
      rcases hrg.2 with ⟨t2, ht2⟩
      refine StoreContains_mono ⟨t1, ?_⟩ ⟨t2, ?_⟩ hsc
      · rw [ht1, hst.1]
      · rw [ht2, hst.2]
    · exact ih _ _ _ r b hbm hr

theorem generateAndStore_covers {e : Ext} (hdb : ∀ i, e.dbOk i = true)
    (hprov : ∀ i ts, e.provider i ts = some ts.length) (s : St) (starred : List Repo) :
    ∀ r ∈ starred, StoreContains (generateAndStoreEmbeddings e s starred).2 r.id := by
  intro r hr
  unfold generateAndStoreEmbeddings
  split
  · rename_i hempty
    rw [List.isEmpty_iff] at hempty
    subst hempty
    exact absurd hr (List.not_mem_nil r)
  · dsimp only
    split <;> rename_i X s1 hex
    · have hh := existingRepos_hdb hdb s (starred.map fun r => r.id)
      rw [hex] at hh
      exact absurd hh (by simp)
    · have hh := existingRepos_hdb hdb s (starred.map fun r => r.id)
      rw [hex] at hh
      dsimp only at hh
      have hX : X = (starred.map fun r => r.id).filter (fun i =>
          s.reposWithEmbedding.contains i || s.reposWithoutReadme.contains i) :=
        Except.ok.inj hh
      have hexf := existingRepos_frame e s (starred.map fun r => r.id)
      rw [hex] at hexf
      have hmid : StoreContains
          (if (reposNeedingEmbeddings X starred).isEmpty = true then
            (updateJobProgress e s1 starred.length starred.length 0).2
          else
            (runBatches e s1 starred.length
              (starred.length - (reposNeedingEmbeddings X starred).length)
              (chunksOf 50 (reposNeedingEmbeddings X starred)) 0 0).2.2) r.id := by
        by_cases hc : X.contains r.id = true
        · have hsc : StoreContains s1 r.id := by
            have hmemX := natContains_iff.mp hc
            rw [hX] at hmemX
            have hpred := (List.mem_filter.mp hmemX).2
            rw [Bool.or_eq_true] at hpred
            rcases hpred with h | h
            · left
              rw [hexf.2.2.2.2.1]
              exact h
            · right
              rw [hexf.2.2.2.2.2]
              exact h
          split
          · have hst := updateJobProgress_store e s1 starred.length starred.length 0
            exact StoreContains_mono ⟨[], by rw [hst.1, List.append_nil]⟩
              ⟨[], by rw [hst.2, List.append_nil]⟩ hsc
          · have hrg := runBatches_grows e starred.length
              (starred.length - (reposNeedingEmbeddings X starred).length)
              (chunksOf 50 (reposNeedingEmbeddings X starred)) s1 0 0
            exact StoreContains_mono hrg.1 hrg.2 hsc
        · have hcf : X.contains r.id = false := by
            cases hcc : X.contains r.id
            · rfl
            · exact absurd hcc hc
          have hrtp : r ∈ reposNeedingEmbeddings X starred := by
            unfold reposNeedingEmbeddings
            refine List.mem_filter.mpr ⟨hr, ?_⟩
            simp only [hcf, Bool.not_false]
          split
          · rename_i hempt
            rw [List.isEmpty_iff] at hempt
            rw [hempt] at hrtp
            exact absurd hrtp (List.not_mem_nil r)
          · rcases exists_chunk_of_mem (show (50 : Nat) ≠ 0 by omega) hrtp
              with ⟨c, hcmem, hrc⟩
            exact runBatches_covers hdb hprov starred.length
              (starred.length - (reposNeedingEmbeddings X starred).length)
              (chunksOf 50 (reposNeedingEmbeddings X starred)) s1 0 0 r c hcmem hrc
      split <;> rename_i u s3 hh2
      all_goals {
        have hf := updateUserStarsHelper_store e
          (if (reposNeedingEmbeddings X starred).isEmpty = true then
            (updateJobProgress e s1 starred.length starred.length 0).2
          else
            (runBatches e s1 starred.length
              (starred.length - (reposNeedingEmbeddings X starred).length)
              (chunksOf 50 (reposNeedingEmbeddings X starred)) 0 0).2.2)
          (starred.map fun r => r.id)
        rw [hh2] at hf
        exact StoreContains_mono ⟨[], by rw [hf.1, List.append_nil]⟩
          ⟨[], by rw [hf.2, List.append_nil]⟩ hmid }

/-- C4: enrichment is idempotent per item id. First conjunct: every repo
whose id is already recorded in the store (with an embedding or a
tracked-unenriched marker, i.e. listed in `existingIds`) is excluded from
processing by the dedup filter. Second conjunct: when a first run over
`starred` out of any initial stores executes with every database call
succeeding and a well-behaved provider, a second run over the unchanged
`starred` list, started from the stores the first run left behind, makes
zero embedding-provider calls — regardless of the oracle driving the
second run. -/
theorem idempotent_enrichment :
    (∀ (existingIds : List Nat) (starred : List Repo) (r : Repo),
        existingIds.contains r.id = true →
        r ∉ reposNeedingEmbeddings existingIds starred) ∧
    (∀ (e1 e2 : Ext) (wE wR : List Nat) (us : Option (List Nat × String))
        (starred : List Repo),
        (∀ i, e1.dbOk i = true) →
        (∀ i ts, e1.provider i ts = some ts.length) →
        (generateAndStoreEmbeddings e2
            (secondRun (generateAndStoreEmbeddings e1 (mkSt wE wR us) starred).2)
            starred).2.embedCalls = []) := by
  constructor
  · intro X starred r hc hmem
    unfold reposNeedingEmbeddings at hmem
    have h2 := (List.mem_filter.mp hmem).2
    simp only [hc, Bool.not_true] at h2
    exact Bool.false_ne_true h2
  · intro e1 e2 wE wR us starred hdb hprov
    obtain ⟨s1, hs1⟩ : ∃ s1,
        (generateAndStoreEmbeddings e1 (mkSt wE wR us) starred).2 = s1 := ⟨_, rfl⟩
    have hcov : ∀ r ∈ starred, StoreContains s1 r.id := by
      intro r hr
      rw [← hs1]
      exact generateAndStore_covers hdb hprov (mkSt wE wR us) starred r hr
    rw [hs1]
    by_cases hempty : starred.isEmpty = true
    · unfold generateAndStoreEmbeddings
      rw [if_pos hempty]
      rfl
    · by_cases hdb2 : e2.dbOk (secondRun s1).dbCalls = true
      · have hee : existingRepos e2 (secondRun s1) (starred.map (fun r => r.id)) =
            (.ok ((starred.map (fun r => r.id)).filter (fun i =>
                (secondRun s1).reposWithEmbedding.contains i ||
                (secondRun s1).reposWithoutReadme.contains i)),
             { secondRun s1 with dbCalls := (secondRun s1).dbCalls + 1 }) := by
          unfold existingRepos dbStep
          dsimp only
          rw [if_pos hdb2]
        have hrtp : reposNeedingEmbeddings
            ((starred.map (fun r => r.id)).filter (fun i =>
              (secondRun s1).reposWithEmbedding.contains i ||
              (secondRun s1).reposWithoutReadme.contains i)) starred = [] := by
          unfold reposNeedingEmbeddings
          rw [List.filter_eq_nil_iff]
          intro a ha hbad
          have hsc := hcov a ha
          have hmemX : a.id ∈ (starred.map (fun r => r.id)).filter (fun i =>
              (secondRun s1).reposWithEmbedding.contains i ||
              (secondRun s1).reposWithoutReadme.contains i) := by
            refine List.mem_filter.mpr ⟨List.mem_map_of_mem _ ha, ?_⟩
            rw [Bool.or_eq_true]
            rcases hsc with h | h
            · exact Or.inl h
            · exact Or.inr h
          have hct := natContains_iff.mpr hmemX
          simp only [hct, Bool.not_true] at hbad
          exact Bool.false_ne_true hbad
        unfold generateAndStoreEmbeddings
        rw [if_neg hempty]
        dsimp only
        rw [hee]
        dsimp only
        simp only [hrtp, List.isEmpty_nil, eq_self_iff_true, if_true]
        split <;> rename_i u s3 hh
        all_goals {
          dsimp only
          have hf := updateUserStarsHelper_frame e2 ((updateJobProgress e2
            ({ secondRun s1 with dbCalls := (secondRun s1).dbCalls + 1 })
            starred.length starred.length 0).2) (starred.map (fun r => r.id))
          rw [hh] at hf
          dsimp only at hf
          rw [hf.2.1,
            (updateJobProgress_log e2
              ({ secondRun s1 with dbCalls := (secondRun s1).dbCalls + 1 })
              starred.length starred.length 0).2.1]
          rfl }
      · have hee : existingRepos e2 (secondRun s1) (starred.map (fun r => r.id)) =
            (.error (),
             { secondRun s1 with dbCalls := (secondRun s1).dbCalls + 1 }) := by
          unfold existingRepos dbStep
          dsimp only
          rw [if_neg hdb2]
        unfold generateAndStoreEmbeddings
        rw [if_neg hempty]
        dsimp only
        rw [hee]
        rfl

/-- Concrete instantiation of the C4 theorem: repo id 1 already known is
skipped by the filter, and a fully successful run over `[repoA]` followed
by a second run over the same list yields an empty provider-call log in
the second run. -/
theorem idempotent_enrichment_witness :
    ([1] : List Nat).contains repoA.id = true ∧
    repoA ∉ reposNeedingEmbeddings [1] [repoA] ∧
    (generateAndStoreEmbeddings extAllGood
        (secondRun (generateAndStoreEmbeddings extAllGood
          (mkSt [] [] none) [repoA]).2) [repoA]).2.embedCalls = [] :=
  ⟨by decide,
   idempotent_enrichment.1 [1] [repoA] repoA (by decide),
   idempotent_enrichment.2 extAllGood extAllGood [] [] none [repoA]
     (fun _ => rfl) (fun _ _ => rfl)⟩

theorem updateJobProgress_hdb {e : Ext} (hdb : ∀ i, e.dbOk i = true) (s : St)
    (t p f : Nat) :
    (updateJobProgress e s t p f).2.job.status = s.job.status ∧
    (updateJobProgress e s t p f).2.job.totalRepos = t ∧
    (updateJobProgress e s t p f).2.job.processedRepos = p ∧
    (updateJobProgress e s t p f).2.job.failedRepos = f := by
  unfold updateJobProgress dbStep
  dsimp only
  rw [if_pos (hdb s.dbCalls)]
  exact ⟨rfl, rfl, rfl, rfl⟩

theorem updateUserStarsHelper_hdb {e : Ext} (hdb : ∀ i, e.dbOk i = true)
    {u : String} (huser : e.getUser = some u) (s : St) (ids : List Nat) :
    updateUserStarsHelper e s ids =
      (.ok (), { s with
        userStars := some (ids, u)
        dbCalls := s.dbCalls + 1 }) := by
  unfold updateUserStarsHelper updateUserStarsDb dbStep
  rw [huser]
  dsimp only
  rw [if_pos (hdb s.dbCalls)]
  rfl

theorem completeJobDb_hdb {e : Ext} (hdb : ∀ i, e.dbOk i = true) (s : St) :
    completeJobDb e s =
      (true, { s with
        job := { s.job with
          status := "completed"
          completedAt := some (s.dbCalls + 1) }
        dbCalls := s.dbCalls + 1 }) := by
  unfold completeJobDb dbStep
  dsimp only
  rw [if_pos (hdb s.dbCalls)]

/-- C7: partial-failure isolation. For a run over `starred` (at most one
outer batch, pairwise-distinct ids, fresh stores) in which exactly the
repository `bad` has a failing README fetch while every other repository
obtains content and every database call, provider call and user lookup
succeeds, the pipeline task returns success, the job record ends
completed with total equal to the number of starred repositories,
processed equal to that number minus one and failed zero, and `bad` has
no stored embedding but does have a tracked-unenriched record. -/
theorem partial_failure_isolation (e : Ext) (us : Option (List Nat × String))
    (starred : List Repo) (bad : Repo) (u : String)
    (hfetch : e.fetchStars = .ok starred)
    (hlen : starred.length ≤ 50)
    (hnodup : (starred.map (fun r => r.id)).Nodup)
    (hbadmem : bad ∈ starred)
    (hbadre : e.readme bad.id = none)
    (hgoodre : ∀ r ∈ starred, r.id ≠ bad.id → ∃ c, e.readme r.id = some (some c))
    (hraw : ∀ r ∈ starred, r.readme_content = none)
    (hdb : ∀ i, e.dbOk i = true)
    (hprov : ∀ i ts, e.provider i ts = some ts.length)
    (huser : e.getUser = some u) :
    (processUserStars e (mkSt [] [] us)).1 = .ok () ∧
    (processUserStars e (mkSt [] [] us)).2.job.status = "completed" ∧
    (processUserStars e (mkSt [] [] us)).2.job.totalRepos = starred.length ∧
    (processUserStars e (mkSt [] [] us)).2.job.processedRepos
      = starred.length - 1 ∧
    (processUserStars e (mkSt [] [] us)).2.job.failedRepos = 0 ∧
    (processUserStars e (mkSt [] [] us)).2.reposWithEmbedding.contains bad.id
      = false ∧
    (processUserStars e (mkSt [] [] us)).2.reposWithoutReadme.contains bad.id
      = true := by
  have hne : starred ≠ [] := List.ne_nil_of_mem hbadmem
  have hempty : ¬(starred.isEmpty = true) := fun h => hne (List.isEmpty_iff.mp h)
  have hids : ¬((starred.map (fun r => r.id)).isEmpty = true) := by
    intro h
    exact hne (List.map_eq_nil_iff.mp (List.isEmpty_iff.mp h))
  rcases List.append_of_mem hbadmem with ⟨l1, l2, hsplit⟩
  have hndid : (l1.map (fun r => r.id) ++ bad.id :: l2.map (fun r => r.id)).Nodup := by
    have h0 := hnodup
    rw [hsplit, List.map_append, List.map_cons] at h0
    exact h0
  have hdisj := (List.nodup_append.mp hndid).2.2
  have hbadnotl1 : bad.id ∉ l1.map (fun r => r.id) := fun hmem =>
    hdisj hmem (List.mem_cons_self _ _)
  have hbadnotl2 : bad.id ∉ l2.map (fun r => r.id) :=
    (List.nodup_cons.mp (List.nodup_append.mp hndid).2.1).1
  have hneq1 : ∀ r ∈ l1, r.id ≠ bad.id := fun r hr heq =>
    hbadnotl1 (heq ▸ List.mem_map_of_mem _ hr)
  have hneq2 : ∀ r ∈ l2, r.id ≠ bad.id := fun r hr heq =>
    hbadnotl2 (heq ▸ List.mem_map_of_mem _ hr)
  have hmem1 : ∀ r ∈ l1, r ∈ starred := fun r hr => by
    rw [hsplit]
    exact List.mem_append_left _ hr
  have hmem2 : ∀ r ∈ l2, r ∈ starred := fun r hr => by
    rw [hsplit]
    exact List.mem_append_right _ (List.mem_cons_of_mem _ hr)
  have hfgood : ∀ r ∈ starred, r.id ≠ bad.id →
      ∃ c, (fetchReadme e r).readme_content = some c := by
    intro r hr hner
    rcases hgoodre r hr hner with ⟨c, hc⟩
    refine ⟨c, ?_⟩
    unfold fetchReadme
    rw [hc]
  have hfbad : (fetchReadme e bad).readme_content = none := by
    unfold fetchReadme
    rw [hbadre]
    exact hraw bad hbadmem
  have hpr : (starred.map (fetchReadme e)).filter (fun r => r.readme_content.isSome)
      = l1.map (fetchReadme e) ++ l2.map (fetchReadme e) := by
    rw [hsplit, List.map_append, List.map_cons, List.filter_append]
    congr 1
    · apply List.filter_eq_self.mpr
      intro x hx
      rcases List.mem_map.mp hx with ⟨a, ha, rfl⟩
      rcases hfgood a (hmem1 a ha) (hneq1 a ha) with ⟨c, hc⟩
      simp [hc]
    · rw [List.filter_cons_of_neg (by simp [hfbad])]
      apply List.filter_eq_self.mpr
      intro x hx
      rcases List.mem_map.mp hx with ⟨a, ha, rfl⟩
      rcases hfgood a (hmem2 a ha) (hneq2 a ha) with ⟨c, hc⟩
      simp [hc]
  have hprN : (starred.map (fetchReadme e)).filter (fun r => r.readme_content.isNone)
      = [fetchReadme e bad] := by
    rw [hsplit, List.map_append, List.map_cons, List.filter_append]
    have h1 : (l1.map (fetchReadme e)).filter (fun r => r.readme_content.isNone)
        = [] := by
      apply List.filter_eq_nil_iff.mpr
      intro x hx
      rcases List.mem_map.mp hx with ⟨a, ha, rfl⟩
      rcases hfgood a (hmem1 a ha) (hneq1 a ha) with ⟨c, hc⟩
      simp [hc]
    have h2 : (l2.map (fetchReadme e)).filter (fun r => r.readme_content.isNone)
        = [] := by
      apply List.filter_eq_nil_iff.mpr
      intro x hx
      rcases List.mem_map.mp hx with ⟨a, ha, rfl⟩
      rcases hfgood a (hmem2 a ha) (hneq2 a ha) with ⟨c, hc⟩
      simp [hc]
    rw [h1, List.filter_cons_of_pos (by simp [hfbad]), h2]
    rfl
  have hlenT : starred.length = l1.length + l2.length + 1 := by
    rw [hsplit, List.length_append, List.length_cons]
    omega
  have hK : ((starred.map (fetchReadme e)).filter
      (fun r => r.readme_content.isSome)).length = starred.length - 1 := by
    rw [hpr, List.length_append, List.length_map, List.length_map]
    omega
  have hpre : starsPrelude e (mkSt [] [] us) = (.ok starred,
      { reposWithEmbedding := []
        reposWithoutReadme := []
        userStars := us
        job := { status := "Creating embeddings..."
                 totalRepos := starred.length
                 processedRepos := 0
                 failedRepos := 0
                 completedAt := none }
        progressLog := [(starred.length, 0, 0)]
        embedCalls := []
        dbCalls := 3
        provCalls := 0 }) := by
    unfold starsPrelude updateJobStatus updateJobProgress dbStep mkSt
    simp only [hdb, hfetch]
    rfl
  unfold processUserStars
  rw [hpre]
  dsimp only
  generalize hSPdef :
      ({ reposWithEmbedding := []
         reposWithoutReadme := []
         userStars := us
         job := { status := "Creating embeddings..."
                  totalRepos := starred.length
                  processedRepos := 0
                  failedRepos := 0
                  completedAt := none }
         progressLog := [(starred.length, 0, 0)]
         embedCalls := []
         dbCalls := 3
         provCalls := 0 } : St) = SP
  have hSPwE : SP.reposWithEmbedding = [] := by rw [← hSPdef]
  have hSPwR : SP.reposWithoutReadme = [] := by rw [← hSPdef]
  have hee : existingRepos e SP (starred.map (fun r => r.id)) =
      (.ok [], { SP with dbCalls := SP.dbCalls + 1 }) := by
    unfold existingRepos dbStep
    dsimp only
    rw [if_pos (hdb _)]
    have hfilt : (starred.map (fun r => r.id)).filter (fun i =>
        SP.reposWithEmbedding.contains i || SP.reposWithoutReadme.contains i)
        = [] := by
      apply List.filter_eq_nil_iff.mpr
      intro a _ hcon
      rw [hSPwE, hSPwR] at hcon
      simp at hcon
    rw [hfilt]
  have hrtp0 : reposNeedingEmbeddings [] starred = starred := by
    unfold reposNeedingEmbeddings
    exact List.filter_eq_self.mpr (fun a _ => rfl)
  have hchunks : chunksOf 50 starred = [starred] :=
    chunksOf_singleton (by omega) hne hlen
  rcases hb0 : processRepositoryBatch e { SP with dbCalls := SP.dbCalls + 1 }
      starred with ⟨res, sB⟩
  have hg := processRepositoryBatch_good hdb hprov
    ({ SP with dbCalls := SP.dbCalls + 1 }) starred
  rw [hb0] at hg
  dsimp only at hg
  rw [hg.1] at hb0
  unfold generateAndStoreEmbeddings
  rw [if_neg hempty]
  dsimp only
  rw [hee]
  dsimp only
  rw [hrtp0, if_neg hempty, hchunks,
    runBatches_cons_ok starred.length (starred.length - starred.length) [] 0 0 hb0]
  rw [updateUserStarsHelper_hdb hdb huser]
  dsimp only
  unfold starsFinish
  dsimp only
  rw [if_neg hids]
  rw [updateUserStarsHelper_hdb hdb huser]
  dsimp only
  rw [completeJobDb_hdb hdb]
  dsimp only
  refine ⟨rfl, rfl, ?_, ?_, ?_, ?_, ?_⟩
  · show (updateJobProgress e sB starred.length
      (starred.length - starred.length + (0 + ((starred.map (fetchReadme e)).filter
        (fun r => r.readme_content.isSome)).length)) 0).2.job.totalRepos
      = starred.length
    exact (updateJobProgress_hdb hdb sB _ _ _).2.1
  · show (updateJobProgress e sB starred.length
      (starred.length - starred.length + (0 + ((starred.map (fetchReadme e)).filter
        (fun r => r.readme_content.isSome)).length)) 0).2.job.processedRepos
      = starred.length - 1
    refine ((updateJobProgress_hdb hdb sB _ _ _).2.2.1).trans ?_
    omega
  · show (updateJobProgress e sB starred.length
      (starred.length - starred.length + (0 + ((starred.map (fetchReadme e)).filter
        (fun r => r.readme_content.isSome)).length)) 0).2.job.failedRepos = 0
    exact (updateJobProgress_hdb hdb sB _ _ _).2.2.2
  · show ((updateJobProgress e sB starred.length
      (starred.length - starred.length + (0 + ((starred.map (fetchReadme e)).filter
        (fun r => r.readme_content.isSome)).length)) 0).2.reposWithEmbedding).contains
        bad.id = false
    rw [(updateJobProgress_store e sB starred.length _ 0).1, hg.2.1, hpr]
    rw [← Bool.not_eq_true, natContains_iff]
    intro hm
    rcases List.mem_append.mp hm with h0 | hm2
    · rw [hSPwE] at h0
      exact absurd h0 (List.not_mem_nil _)
    · rcases List.mem_map.mp hm2 with ⟨x, hx, hxid⟩
      rcases List.mem_append.mp hx with hx1 | hx2
      · rcases List.mem_map.mp hx1 with ⟨a, ha, rfl⟩
        rw [fetchReadme_id] at hxid
        exact hneq1 a ha hxid
      · rcases List.mem_map.mp hx2 with ⟨a, ha, rfl⟩
        rw [fetchReadme_id] at hxid
        exact hneq2 a ha hxid
  · show ((updateJobProgress e sB starred.length
      (starred.length - starred.length + (0 + ((starred.map (fetchReadme e)).filter
        (fun r => r.readme_content.isSome)).length)) 0).2.reposWithoutReadme).contains
        bad.id = true
    rw [(updateJobProgress_store e sB starred.length _ 0).2, hg.2.2, hprN,
      natContains_iff]
    refine List.mem_append_right _ ?_
    show bad.id ∈ [(fetchReadme e bad).id]
    exact List.mem_singleton.mpr (fetchReadme_id e bad).symm

/-- Concrete instantiation of the C7 theorem: ten repositories where the
README fetch of repository 5 fails; the job completes with total 10,
processed 9, failed 0, and repository 5 is tracked unenriched with no
embedding. -/
theorem partial_failure_isolation_witness :
    (processUserStars extC7 (mkSt [] [] none)).1 = .ok () ∧
    (processUserStars extC7 (mkSt [] [] none)).2.job.status = "completed" ∧
    (processUserStars extC7 (mkSt [] [] none)).2.job.totalRepos = 10 ∧
    (processUserStars extC7 (mkSt [] [] none)).2.job.processedRepos = 9 ∧
    (processUserStars extC7 (mkSt [] [] none)).2.job.failedRepos = 0 ∧
    (processUserStars extC7 (mkSt [] [] none)).2.reposWithEmbedding.contains 5
      = false ∧
    (processUserStars extC7 (mkSt [] [] none)).2.reposWithoutReadme.contains 5
      = true :=
  partial_failure_isolation extC7 none starsC7 (repoC7 5) "acme"
    rfl
    (by decide)
    (by decide)
    (List.mem_cons_of_mem _ (List.mem_cons_of_mem _ (List.mem_cons_of_mem _
      (List.mem_cons_of_mem _ (List.mem_cons_self _ _)))))
    rfl
    (fun r _ hner => ⟨"text", by
      have hner5 : ¬(r.id = 5) := hner
      show (if r.id = 5 then none else some (some "text")) = some (some "text")
      rw [if_neg hner5]⟩)
    (by decide)
    (fun _ => rfl)
    (fun _ _ => rfl)
    rfl

/-! ## Claim C9: query short-circuits -/

/-- C9 counterexample: with top-k zero but an empty query string the
semantic search raises a validation error instead of returning the empty
result, so the claim as stated (no error whenever top-k is zero) fails. -/
theorem semanticSearch_zero_topk_error :
    (semanticSearch exSearchExt [] "" 0 .global).1 = .error () := rfl

/-- C9 amended: with a nonempty query string, top-k zero returns the empty
result without any embedding-provider call; likewise under restricted
scope, whenever the membership read succeeds and the stored membership
set is empty; no error is raised in these cases. -/
theorem semanticSearch_short_circuit (e : SearchExt) (stars : List (Int × List Nat))
    (query : String) (topK : Nat) (u : Int) :
    (query.data.isEmpty = false → ∀ scope,
      semanticSearch e stars query 0 scope = (.ok [], 0)) ∧
    (query.data.isEmpty = false → e.starsLookupOk = true → lookupStarIds stars u = [] →
      semanticSearch e stars query topK (.starred u) = (.ok [], 0)) := by
  constructor
  · intro hq scope
    unfold semanticSearch
    rw [hq]
    rfl
  · intro hq hok hids
    unfold semanticSearch
    rw [hq]
    cases topK with
    | zero => rfl
    | succ k =>
      simp only [if_false, Bool.false_eq_true, Nat.succ_ne_zero, if_neg]
      rw [hok, hids]
      rfl

/-- Witness for C9 amended at concrete inputs. -/
theorem semanticSearch_short_circuit_witness :
    semanticSearch exSearchExt [] "rust" 0 .global = (.ok [], 0) ∧
    semanticSearch exSearchExt [] "rust" 10 (.starred 5) = (.ok [], 0) :=
  ⟨(semanticSearch_short_circuit exSearchExt [] "rust" 0 5).1 (by decide) .global,
   (semanticSearch_short_circuit exSearchExt [] "rust" 10 5).2 (by decide) rfl rfl⟩

end Starscout
